import Mathlib

/-!
# simple_shell: a verification development for `main.c`

A shallow embedding of the shell's read-parse-expand-execute pipeline.

Conventions of the embedding.

* A C string (`char *` up to its terminating NUL) is a `List Char`; the
  terminator is the end of the list, so `*s == 0` reads `s = []`.
* A `char **` slot is a `Ptr`: `NULL`, a live heap string, or the address of
  a block that was handed to `free`.
* The platform services (`fork`, `execvp`, `waitpid`, `getpid`) are
  parameters of the model; `malloc` and `strdup` are taken to succeed.
* Loops whose C termination argument is "the cursor moves right" run on a
  fuel counter and return `none` when it runs out.
* The text written by `perror` depends on the platform and is not recorded;
  the prompt writes of interactive mode are not recorded either.
-/

namespace SimpleShell

/-! ## Constants -/

/-- Maximum arguments that a command supports (`#define MAX_ARGS 50`). -/
def MAX_ARGS : Nat := 50

/-- Maximum number of aliases (`#define MAX_ALIASES 50`). -/
def MAX_ALIASES : Nat := 50

/-- Maximum number of variables (`#define MAX_VARIABLES 50`). -/
def MAX_VARIABLES : Nat := 50

/-! ## C library string primitives -/

/-- Length of the longest prefix of `s` made only of characters of `accept`
(`strspn`). -/
def strspn : List Char → List Char → Nat
  | [], _ => 0
  | c :: s, accept => if c ∈ accept then strspn s accept + 1 else 0

/-- Length of the longest prefix of `s` with no character of `reject`
(`strcspn`). -/
def strcspn : List Char → List Char → Nat
  | [], _ => 0
  | c :: s, reject => if c ∈ reject then 0 else strcspn s reject + 1

/-- One call of `strtok` on the text the saved cursor points at (`rest`):
skip leading delimiters; with nothing left return `NULL`; otherwise the
token runs up to the next delimiter, which is overwritten by NUL, and the
cursor moves just past it (or stays at the terminator). Returns the token
and the text at the new cursor. -/
def strtok (rest delim : List Char) : Option (List Char) × List Char :=
  let s := rest.drop (strspn rest delim)
  match s with
  | [] => (none, [])
  | _ :: _ =>
    let n := strcspn s delim
    (some (s.take n), (s.drop n).drop 1)

/-! ## Argument array -/

/-- Content of one `char *` slot of the argument array. -/
inductive Ptr where
  | null : Ptr
  | str (s : List Char) : Ptr
  | freed : Ptr
  deriving DecidableEq, Repr

/-- Releases every slot up to the first `NULL` (`free_args`); the slots keep
their now dangling addresses. -/
def free_args : List Ptr → List Ptr
  | [] => []
  | Ptr.null :: rest => Ptr.null :: rest
  | _ :: rest => Ptr.freed :: free_args rest

/-- What `fprintf(stderr, "Too many arguments. Maximum allowed: %d\n", MAX_ARGS)`
writes. -/
def too_many_arguments : List Char := "Too many arguments. Maximum allowed: 50\n".toList

/-- The `while (*input_string)` loop of `string_token`, with the cursor text
`input`, the counter `numtoken` and the array `args`. Returns the counter,
the array and what was written to the error stream. -/
def string_token_loop : Nat → List Char → List Char → Nat → List Ptr →
    Option (Nat × List Ptr × List Char)
  | 0, _, _, _, _ => none
  | fuel + 1, input, delimiters, numtoken, args =>
    match input with
    | [] => some (numtoken, args, [])
    | _ :: _ =>
      let token_len := strcspn input delimiters
      let next := input.drop (token_len + strspn (input.drop token_len) delimiters)
      if token_len > 0 then
        let args1 := args.set numtoken (Ptr.str (input.take token_len))
        let numtoken1 := numtoken + 1
        if numtoken1 ≥ MAX_ARGS then
          some (numtoken1, free_args args1, too_many_arguments)
        else
          string_token_loop fuel next delimiters numtoken1 args1
      else
        string_token_loop fuel next delimiters numtoken args

/-- Tokenizer `string_token(input_string, delimiters, args)`: returns the
count, the array after the call and what was written to the error stream. -/
def string_token (input_string delimiters : List Char) (args : List Ptr) :
    Option (Nat × List Ptr × List Char) :=
  let input := input_string.drop (strspn input_string delimiters)
  match string_token_loop (input.length + 1) input delimiters 0 args with
  | none => none
  | some (numtoken, args1, diag) => some (numtoken, args1.set numtoken Ptr.null, diag)

/-- The shell's delimiter set `" \t\n"`. -/
def default_delimiters : List Char := [' ', '\t', '\n']

/-- A fresh argument array: `char *args[MAX_ARGS + 1] = { NULL }`. -/
def fresh_args : List Ptr := List.replicate (MAX_ARGS + 1) Ptr.null

/-- The live argument vector held by the array: the strings before the first
`NULL`. Reading a slot that was released is undefined (`none`). -/
def argv_of : List Ptr → Option (List (List Char))
  | [] => some []
  | Ptr.null :: _ => some []
  | Ptr.freed :: _ => none
  | Ptr.str s :: rest =>
    match argv_of rest with
    | none => none
    | some v => some (s :: v)

/-- Writes the vector `argv` back over the first slots of the array (the
in-place replacements of the substitution passes). -/
def store_argv (argv : List (List Char)) (args : List Ptr) : List Ptr :=
  argv.map Ptr.str ++ args.drop argv.length

/-! ## Aliases -/

/-- Struct to store alias data. -/
structure Alias where
  alias_name : List Char
  command : List Char
  deriving DecidableEq, Repr

/-- What `printf("alias %s='%s'\n", ...)` writes for one entry. -/
def alias_line (a : Alias) : List Char :=
  "alias ".toList ++ a.alias_name ++ "='".toList ++ a.command ++ "'\n".toList

/-- What `printf("Alias '%s' not found.\n", name)` writes. -/
def alias_not_found (name : List Char) : List Char :=
  "Alias '".toList ++ name ++ "' not found.\n".toList

/-- What `fprintf(stderr, "Too many aliases. Maximum allowed: %d\n", MAX_ALIASES)`
writes. -/
def too_many_aliases : List Char := "Too many aliases. Maximum allowed: 50\n".toList

/-- The listing loop of the zero-argument form. -/
def alias_list_all : List Alias → List Char
  | [] => []
  | a :: rest => alias_line a ++ alias_list_all rest

/-- The scanning loop of the one-argument form: the first entry, from index 0
upwards, whose name compares equal (`strcmp(...) == 0`) is printed and the
function returns; after the loop the not-found line is printed. -/
def alias_show (name : List Char) : List Alias → List Char
  | [] => alias_not_found name
  | a :: rest => if name = a.alias_name then alias_line a else alias_show name rest

/-- Effect of one call of `handle_alias_command`: the table after the call
(`alias_count` is its length) and what was written to the two streams. -/
structure AliasEffect where
  aliases : List Alias
  out : List Char
  err : List Char
  deriving DecidableEq, Repr

/-- Builtin `handle_alias_command(args, aliases, &alias_count)`. The caller
passes a vector whose first token is `alias`; `args[1] == NULL` and
`args[2] == NULL` select the form. -/
def handle_alias_command (args : List (List Char)) (aliases : List Alias) : AliasEffect :=
  match args with
  | [] => ⟨aliases, [], []⟩
  | [_] => ⟨aliases, alias_list_all aliases, []⟩
  | [_, name] => ⟨aliases, alias_show name aliases, []⟩
  | _ :: name :: value :: _ =>
    if aliases.length ≥ MAX_ALIASES then ⟨aliases, [], too_many_aliases⟩
    else ⟨aliases ++ [⟨name, value⟩], [], []⟩

/-! ## Variables -/

/-- Struct to store variable data (the contents of the two `char` arrays as
C strings). -/
structure Variable where
  name : List Char
  value : List Char
  deriving DecidableEq, Repr

/-- Test `is_variable(input_string, variable_name)`:
`strncmp(input, name, strlen(name)) == 0 && input[strlen(name)] == 0`. -/
def is_variable (input_string variable_name : List Char) : Bool :=
  let variable_name_len := variable_name.length
  (input_string.take variable_name_len == variable_name.take variable_name_len) &&
    (input_string.get? variable_name_len).isNone

/-- The inner `for (j = 0; j < variable_count; j++)` loop of
`replace_variables` on one slot: every table entry is tried in turn against
the slot's current content. -/
def replace_slot (tok : List Char) : List Variable → List Char
  | [] => tok
  | v :: rest => if is_variable tok v.name then replace_slot v.value rest else replace_slot tok rest

/-- Pass `replace_variables(args, variables, variable_count)`. -/
def replace_variables : List (List Char) → List Variable → List (List Char)
  | [], _ => []
  | a :: rest, vars => replace_slot a vars :: replace_variables rest vars

/-- Output of `printf`'s `%d` for an `int`. -/
def format_d : Int → List Char
  | Int.ofNat n => Nat.toDigits 10 n
  | Int.negSucc n => '-' :: Nat.toDigits 10 (n + 1)

/-- Buffer filled by `snprintf(pid_str, sizeof(pid_str), "%d", getpid())` with
`char pid_str[20]`: at most 19 characters are kept. -/
def pid_str (pid : Int) : List Char := (format_d pid).take 19

/-- Pass `handle_dollar_dollar(args)`; `pid` is what `getpid()` returns. -/
def handle_dollar_dollar : List (List Char) → Int → List (List Char)
  | [], _ => []
  | a :: rest, pid =>
    (if is_variable a ['$', '$'] then pid_str pid else a) :: handle_dollar_dollar rest pid

/-! ## Executor -/

/-- What the platform's process primitives report for one `execute_command`
call: `fork` failed; the child's `execvp` failed; the program exited with
`code`; the program was ended by signal `sig`. `waitpid` is taken to deliver
the child's status. -/
inductive ProcOutcome where
  | fork_failed : ProcOutcome
  | exec_failed : ProcOutcome
  | exited (code : Nat) : ProcOutcome
  | signaled (sig : Nat) : ProcOutcome
  deriving DecidableEq, Repr

/-- Status returned by `execute_command`: 1 when `fork` fails; the child's
`WEXITSTATUS` when it exited (127 after a failed `execvp`); -1 otherwise. -/
def execute_command : ProcOutcome → Int
  | ProcOutcome.fork_failed => 1
  | ProcOutcome.exec_failed => 127
  | ProcOutcome.exited code => ((code % 256 : Nat) : Int)
  | ProcOutcome.signaled _ => -1

/-- Whether `execute_command` reaches its `waitpid` call: it returns before it
when `fork` fails, and blocks in it in the parent otherwise. -/
def execute_command_waits : ProcOutcome → Bool
  | ProcOutcome.fork_failed => false
  | _ => true

/-- The platform: outcome of the `k`-th process launch, given its vector. -/
abbrev Platform := Nat → List (List Char) → ProcOutcome

/-! ## Shell loop -/

/-- Whether the shell process is still running. -/
inductive Run where
  | running : Run
  | exited (code : Nat) : Run
  | undefined : Run
  deriving DecidableEq, Repr

/-- Observable state of the shell: the alias table, the two output streams,
and the argument vectors handed to `execute_command`, oldest first. -/
structure Shell where
  aliases : List Alias
  out : List Char
  err : List Char
  executed : List (List (List Char))
  run : Run
  deriving DecidableEq, Repr

/-- State at the start of `execute_shell`: `alias_count = 0`. -/
def Shell.init : Shell := ⟨[], [], [], [], Run.running⟩

/-- Builtin test `is_builtin_command(command)`: `none` when the call does not
return because `exit(EXIT_SUCCESS)` ended the process. -/
def is_builtin_command (command : List Char) : Option Bool :=
  if command = "exit".toList then none
  else if command = "alias".toList then some true
  else some false

/-- One `execute_command(args[0], args)` call: appends the vector to the
record and returns the status. -/
def run_external (platform : Platform) (argv : List (List Char)) (st : Shell) : Int × Shell :=
  (execute_command (platform st.executed.length argv),
    { st with executed := st.executed ++ [argv] })

/-- The `while (op != NULL)` loop of `execute_shell`. `rest` is the text at
`strtok`'s saved cursor, `argv` the current content of `args`. Returns the
cursor text and the vector at loop exit. -/
def chain_loop (platform : Platform) (pid : Int) :
    Nat → Option (List Char) → List Char → List (List Char) → Int → Shell →
    Option (List Char × List (List Char) × Shell)
  | _, none, rest, argv, _, st => some (rest, argv, st)
  | 0, some _, _, _, _, _ => none
  | fuel + 1, some op, rest, argv, status, st =>
    let is_and := decide (op = ['&', '&'])
    let is_or := decide (op = ['|', '|'])
    if is_and && status != 0 then some (rest, argv, st)
    else if is_or && status == 0 then some (rest, argv, st)
    else
      match strtok rest [';'] with
      | (some _, rest1) =>
        let argv1 := handle_dollar_dollar (replace_variables argv []) pid
        let (status1, st1) := run_external platform argv1 st
        let (op1, rest2) := strtok rest1 ['&', '|']
        chain_loop platform pid fuel op1 rest2 argv1 status1 st1
      | (none, rest1) => chain_loop platform pid fuel none rest1 argv status st

/-- What `fprintf(stderr, "Invalid input length.\n")` writes. -/
def invalid_input_length : List Char := "Invalid input length.\n".toList

/-- The `while (command != NULL)` loop of `execute_shell`. `command` is the
current `;`-segment, `rest` the text at `strtok`'s saved cursor, `args` the
argument array. -/
def command_loop (platform : Platform) (pid : Int) :
    Nat → Option (List Char) → List Char → List Ptr → Shell → Option Shell
  | _, none, _, _, st => some st
  | 0, some _, _, _, _ => none
  | fuel + 1, some command, rest, args, st =>
    if 0 < command.length ∧ command.length < 1024 then
      match string_token command default_delimiters args with
      | none => none
      | some (num_tokens, args1, diag) =>
        let st := { st with err := st.err ++ diag }
        if num_tokens > 0 then
          match argv_of args1 with
          | none => some { st with run := Run.undefined }
          | some [] => some { st with run := Run.undefined }
          | some (a0 :: as) =>
            if is_variable a0 ['#'] then some st
            else
              match is_builtin_command a0 with
              | none => some { st with run := Run.exited 0 }
              | some true =>
                let st1 :=
                  if a0 = "alias".toList then
                    let e := handle_alias_command (a0 :: as) st.aliases
                    { st with aliases := e.aliases, out := st.out ++ e.out, err := st.err ++ e.err }
                  else st
                let (command1, rest1) := strtok rest [';']
                command_loop platform pid fuel command1 rest1 args1 st1
              | some false =>
                let argv1 := handle_dollar_dollar (replace_variables (a0 :: as) []) pid
                let (status, st1) := run_external platform argv1 st
                let (op, rest1) := strtok rest ['&', '|']
                match chain_loop platform pid fuel op rest1 argv1 status st1 with
                | none => none
                | some (rest2, argv2, st2) =>
                  let (command1, rest3) := strtok rest2 [';']
                  command_loop platform pid fuel command1 rest3 (store_argv argv2 args1) st2
        else
          let st1 := { st with err := st.err ++ invalid_input_length }
          let (command1, rest1) := strtok rest [';']
          command_loop platform pid fuel command1 rest1 args1 st1
    else
      let (command1, rest1) := strtok rest [';']
      command_loop platform pid fuel command1 rest1 args st

/-- Comment stripping `handle_comment`: the string is cut at the first `#`. -/
def handle_comment (input_string : List Char) : List Char :=
  input_string.take (strcspn input_string ['#'])

/-- Body of the `while (1)` loop of `execute_shell` for one input unit `raw`
returned by `read_input` (as a C string it ends at its first NUL): cut at the
first newline, strip the comment, skip an empty line, then run the `;` loop
on a fresh argument array. -/
def process_line (platform : Platform) (pid : Int) (raw : List Char) (st : Shell) :
    Option Shell :=
  let buf0 := raw.take (strcspn raw [Char.ofNat 0])
  let buf1 := buf0.take (strcspn buf0 ['\n'])
  let buf := handle_comment buf1
  if buf.length = 0 then some st
  else
    let (command, rest) := strtok buf [';']
    command_loop platform pid (buf.length + 1) command rest fresh_args st

/-- The `while (1)` loop of `execute_shell` over the input units that
`read_input` returns one after the other, as long as the process is running;
the prompt writes of interactive mode are left out of `out`. -/
def process_lines (platform : Platform) (pid : Int) : List (List Char) → Shell → Option Shell
  | [], st => some st
  | raw :: more, st =>
    match st.run with
    | Run.running =>
      match process_line platform pid raw st with
      | none => none
      | some st1 => process_lines platform pid more st1
    | _ => some st

/-- Delimiter of the unit that `read_input` reads: the newline of `getline`
in interactive mode; in non-interactive mode the delimiter `EOF` (-1) passed
to `getdelim`, which the library matches as the byte 0xFF. -/
def unit_delimiter (interactive : Bool) : Char :=
  if interactive then '\n' else Char.ofNat 255

/-- Line source `read_input(stream)` on the unread text `stream`: `none` at
end of input; otherwise the unit read and the text left. The unit runs up to
and including the first delimiter, or to the end of the input when there is
none: one line in interactive mode, and in non-interactive mode all that is
left unless a byte 0xFF comes first. -/
def read_input (interactive : Bool) (stream : List Char) : Option (List Char × List Char) :=
  match stream with
  | [] => none
  | _ :: _ =>
    let n := strcspn stream [unit_delimiter interactive]
    some (stream.take (n + 1), stream.drop (n + 1))

/-- The `while (1)` loop of `execute_shell`: read a unit, stop at end of
input, process the unit, go on while the process is running. -/
def shell_loop (platform : Platform) (pid : Int) (interactive : Bool) :
    Nat → List Char → Shell → Option Shell
  | 0, _, _ => none
  | fuel + 1, stream, st =>
    match read_input interactive stream with
    | none => some st
    | some (raw, stream1) =>
      match process_line platform pid raw st with
      | none => none
      | some st1 =>
        match st1.run with
        | Run.running => shell_loop platform pid interactive fuel stream1 st1
        | _ => some st1

/-- Shell `execute_shell(stream)`, started with an empty alias table. -/
def execute_shell (platform : Platform) (pid : Int) (interactive : Bool)
    (stream : List Char) : Option Shell :=
  shell_loop platform pid interactive (stream.length + 1) stream Shell.init

/-- Where `main` reads from: standard input when no path is given, a script
that `fopen` opened, or a path that `fopen` could not open. -/
inductive Source where
  | stdin (stream : List Char) : Source
  | script (stream : List Char) : Source
  | unreadable : Source
  deriving DecidableEq, Repr

/-- Program `main`: `exit(EXIT_FAILURE)` when the script cannot be opened,
otherwise `execute_shell` on the stream and then `return 0`. In the state
returned, `run` holds the exit status of the process. -/
def main (platform : Platform) (pid : Int) (interactive : Bool) (src : Source) :
    Option Shell :=
  match src with
  | Source.unreadable => some { Shell.init with run := Run.exited 1 }
  | Source.stdin stream | Source.script stream =>
    match execute_shell platform pid interactive stream with
    | none => none
    | some st =>
      match st.run with
      | Run.running => some { st with run := Run.exited 0 }
      | _ => some st

/-- A platform on which every launched program exits with code `c`. -/
def always (c : Nat) : Platform := fun _ _ => ProcOutcome.exited c

/-! ## Reference notions used by the statements -/

/-- The maximal runs of non-delimiter characters of `s`, left to right: the
non-empty pieces obtained by cutting `s` at every delimiter. -/
def token_runs (s delims : List Char) : List (List Char) :=
  (s.splitOnP (fun c => decide (c ∈ delims))).filter (fun r => !r.isEmpty)

/-- A token as the shell can read it back from a line: non-empty and free of
the whitespace delimiters, of `;`, of `#` and of NUL. -/
def plain_token (t : List Char) : Prop :=
  t ≠ [] ∧ ∀ c ∈ t, c ∉ [' ', '\t', '\n', ';', '#', Char.ofNat 0]

instance (t : List Char) : Decidable (plain_token t) := by
  unfold plain_token
  infer_instance

/-- The input line `alias NAME VALUE`. -/
def alias_define_line (name value : List Char) : List Char :=
  "alias ".toList ++ name ++ ' ' :: value

/-- The input line `alias NAME`. -/
def alias_query_line (name : List Char) : List Char :=
  "alias ".toList ++ name

/-- A line that the preprocessing of `execute_shell` leaves as it is: free of
NUL, newline, `#` and `;`. -/
def plain_line (l : List Char) : Prop :=
  ∀ c ∈ l, c ∉ ['\n', ';', '#', Char.ofNat 0]

/-- The operator loop of `execute_shell` with its two short-circuit tests
taken out: what the loop does when neither `break` is ever taken. -/
def chain_loop_unconditional (platform : Platform) (pid : Int) :
    Nat → Option (List Char) → List Char → List (List Char) → Int → Shell →
    Option (List Char × List (List Char) × Shell)
  | _, none, rest, argv, _, st => some (rest, argv, st)
  | 0, some _, _, _, _, _ => none
  | fuel + 1, some _, rest, argv, status, st =>
    match strtok rest [';'] with
    | (some _, rest1) =>
      let argv1 := handle_dollar_dollar (replace_variables argv []) pid
      let (status1, st1) := run_external platform argv1 st
      let (op1, rest2) := strtok rest1 ['&', '|']
      chain_loop_unconditional platform pid fuel op1 rest2 argv1 status1 st1
    | (none, rest1) => chain_loop_unconditional platform pid fuel none rest1 argv status st

/-- The line made of `n` tokens `a`, each followed by a blank. -/
def tokens_line (n : Nat) : List Char := (List.replicate n ['a', ' ']).flatten

/-! ## Lemmas on the string primitives -/

theorem strcspn_le (s d : List Char) : strcspn s d ≤ s.length := by
  induction s with
  | nil => simp [strcspn]
  | cons c s ih =>
    by_cases h : c ∈ d <;> simp [strcspn, h]
    exact ih

theorem strspn_le (s d : List Char) : strspn s d ≤ s.length := by
  induction s with
  | nil => simp [strspn]
  | cons c s ih =>
    by_cases h : c ∈ d <;> simp [strspn, h]
    exact ih

theorem strcspn_drop_strcspn (s d : List Char) : strcspn (s.drop (strcspn s d)) d = 0 := by
  induction s with
  | nil => simp [strcspn]
  | cons c s ih =>
    by_cases h : c ∈ d
    · simp [strcspn, h]
    · simpa [strcspn, h] using ih

theorem take_strcspn_no_delim (s d : List Char) : ∀ c ∈ s.take (strcspn s d), c ∉ d := by
  induction s with
  | nil => simp [strcspn]
  | cons a s ih =>
    by_cases h : a ∈ d
    · simp [strcspn, h]
    · intro c hc
      simp only [strcspn, h, if_false, List.take_succ_cons, List.mem_cons] at hc
      rcases hc with rfl | hc
      · exact h
      · exact ih c hc

/-! ## Lemmas on `token_runs` -/

theorem filter_go_eq (d : List Char) (xs acc : List Char) :
    (List.splitOnP.go (fun c => decide (c ∈ d)) xs acc).filter (fun r => !r.isEmpty)
      = ([acc.reverse ++ xs.take (strcspn xs d)]).filter (fun r => !r.isEmpty)
        ++ token_runs ((xs.drop (strcspn xs d)).drop 1) d := by
  induction xs generalizing acc with
  | nil => simp [List.splitOnP.go, strcspn, token_runs, List.splitOnP]
  | cons e ys ih =>
    by_cases h : e ∈ d
    · simp only [List.splitOnP.go, strcspn, h, decide_True, if_true, token_runs, List.splitOnP,
        List.take_zero, List.append_nil, List.drop_zero, List.drop_succ_cons]
      by_cases ha : acc = [] <;> simp [List.filter_cons, ha]
    · simp only [List.splitOnP.go, strcspn, h, decide_False, if_false,
        List.take_succ_cons, List.drop_succ_cons, Bool.false_eq_true]
      rw [ih (e :: acc)]
      simp

/-- Recursion equation of `token_runs` along `strcspn`. -/
theorem token_runs_eq (s d : List Char) :
    token_runs s d = ([s.take (strcspn s d)]).filter (fun r => !r.isEmpty)
      ++ token_runs ((s.drop (strcspn s d)).drop 1) d := by
  have h := filter_go_eq d s []
  simpa [token_runs, List.splitOnP] using h

theorem token_runs_nil (d : List Char) : token_runs [] d = [] := by
  simp [token_runs, List.splitOnP, List.splitOnP.go]

theorem token_runs_drop_one (s d : List Char) (h : strcspn s d = 0) :
    token_runs s d = token_runs (s.drop 1) d := by
  rw [token_runs_eq s d, h]
  simp

theorem token_runs_drop_strspn (s d : List Char) :
    token_runs (s.drop (strspn s d)) d = token_runs s d := by
  induction s with
  | nil => simp [strspn]
  | cons c s ih =>
    by_cases h : c ∈ d
    · have h0 : strcspn (c :: s) d = 0 := by simp [strcspn, h]
      rw [token_runs_drop_one (c :: s) d h0]
      simpa [strspn, h] using ih
    · simp [strspn, h]

/-- The text the tokenizer moves to after a token has the runs that follow
that token. -/
theorem token_runs_next (s d : List Char) :
    token_runs (s.drop (strcspn s d + strspn (s.drop (strcspn s d)) d)) d
      = token_runs ((s.drop (strcspn s d)).drop 1) d := by
  rw [← List.drop_drop, token_runs_drop_strspn,
    token_runs_drop_one _ d (strcspn_drop_strcspn s d)]

theorem token_runs_mem (s d : List Char) : ∀ t ∈ token_runs s d, t ≠ [] ∧ ∀ c ∈ t, c ∉ d := by
  generalize hn : s.length = n
  induction n using Nat.strong_induction_on generalizing s with
  | _ n ih =>
    intro t ht
    rw [token_runs_eq] at ht
    rcases List.mem_append.mp ht with h1 | h2
    · simp only [List.mem_filter, List.mem_singleton] at h1
      obtain ⟨rfl, hne⟩ := h1
      refine ⟨?_, take_strcspn_no_delim s d⟩
      intro h0
      simp [h0] at hne
    · cases s with
      | nil => simp [strcspn, token_runs_nil] at h2
      | cons a s =>
        refine ih ((List.drop (strcspn (a :: s) d) (a :: s)).drop 1).length ?_ _ rfl t h2
        subst hn
        simp only [List.length_drop, List.length_cons]
        omega

/-! ## The tokenizer loop -/

theorem set_take_succ (l : List Ptr) (k : Nat) (v : Ptr) (h : k < l.length) :
    (l.set k v).take (k + 1) = l.take k ++ [v] := by
  induction l generalizing k with
  | nil => simp at h
  | cons a l ih =>
    cases k with
    | zero => simp
    | succ k =>
      simp only [List.length_cons, Nat.add_lt_add_iff_right] at h
      simp [ih k h]

theorem set_drop_gt (l : List Ptr) (k j : Nat) (v : Ptr) (h : k < j) :
    (l.set k v).drop j = l.drop j := by
  induction l generalizing k j with
  | nil => simp
  | cons a l ih =>
    cases j with
    | zero => omega
    | succ j =>
      cases k with
      | zero => simp
      | succ k => simpa using ih k j (by omega)

theorem next_length_lt (c : Char) (s d : List Char) :
    ((c :: s).drop (strcspn (c :: s) d + strspn ((c :: s).drop (strcspn (c :: s) d)) d)).length
      < (c :: s).length := by
  by_cases h : c ∈ d
  · simp only [strcspn, h, if_true, List.drop_zero, strspn, Nat.zero_add, List.drop_succ_cons,
      List.length_drop, List.length_cons]
    omega
  · simp only [strcspn, h, if_false, List.drop_succ_cons, List.length_drop, List.length_cons]
    omega

/-- With more fuel than characters the tokenizer loop returns. -/
theorem string_token_loop_total (d : List Char) (fuel : Nat) (input : List Char) (k : Nat)
    (args : List Ptr) (hfuel : input.length < fuel) :
    ∃ r, string_token_loop fuel input d k args = some r := by
  induction fuel generalizing input k args with
  | zero => omega
  | succ fuel ih =>
    cases input with
    | nil => exact ⟨_, rfl⟩
    | cons c s =>
      have hnext := next_length_lt c s d
      simp only [string_token_loop]
      split
      · split
        · exact ⟨_, rfl⟩
        · exact ih _ _ _ (by simp only [List.length_cons] at hfuel hnext; omega)
      · exact ih _ _ _ (by simp only [List.length_cons] at hfuel hnext; omega)

/-- The tokenizer returns on every input. -/
theorem string_token_total (s d : List Char) (args : List Ptr) :
    ∃ r, string_token s d args = some r := by
  obtain ⟨r, hr⟩ := string_token_loop_total d ((s.drop (strspn s d)).length + 1)
    (s.drop (strspn s d)) 0 args (by omega)
  exact ⟨(r.1, r.2.1.set r.1 Ptr.null, r.2.2), by simp only [string_token, hr]⟩

/-- Below the cap, the loop stores the runs of its input in consecutive
slots from `numtoken` on and counts them. -/
theorem string_token_loop_runs (d : List Char) (fuel : Nat) (input : List Char) (k : Nat)
    (args : List Ptr) (hfuel : input.length < fuel)
    (hcap : k + (token_runs input d).length < MAX_ARGS)
    (hlen : k + (token_runs input d).length ≤ args.length) :
    string_token_loop fuel input d k args
      = some (k + (token_runs input d).length,
          args.take k ++ (token_runs input d).map Ptr.str
            ++ args.drop (k + (token_runs input d).length), []) := by
  induction fuel generalizing input k args with
  | zero => omega
  | succ fuel ih =>
    cases input with
    | nil => simp [string_token_loop, token_runs_nil]
    | cons c s =>
      have hnext := next_length_lt c s d
      have hruns := token_runs_eq (c :: s) d
      rw [← token_runs_next] at hruns
      simp only [string_token_loop]
      by_cases h0 : strcspn (c :: s) d > 0
      · have hne : (List.take (strcspn (c :: s) d) (c :: s)) ≠ [] := by
          intro h
          have := congrArg List.length h
          simp only [List.length_take, List.length_cons, List.length_nil] at this
          have := strcspn_le (c :: s) d
          simp only [List.length_cons] at this
          omega
        have hr : token_runs (c :: s) d = List.take (strcspn (c :: s) d) (c :: s) ::
            token_runs ((c :: s).drop (strcspn (c :: s) d
              + strspn ((c :: s).drop (strcspn (c :: s) d)) d)) d := by
          rw [hruns]
          simp [List.filter_cons, hne]
        rw [hr] at hcap hlen ⊢
        simp only [List.length_cons] at hcap hlen ⊢
        have hk : ¬ (k + 1 ≥ MAX_ARGS) := by omega
        simp only [h0, if_true, hk, if_false]
        rw [ih _ (k + 1) _ (by simp only [List.length_cons] at hfuel hnext; omega)
          (by omega) (by simp only [List.length_set]; omega)]
        rw [set_take_succ _ _ _ (by omega), set_drop_gt _ _ _ _ (by omega)]
        simp [Nat.add_assoc, Nat.add_comm 1]
      · have hr : token_runs (c :: s) d =
            token_runs ((c :: s).drop (strcspn (c :: s) d
              + strspn ((c :: s).drop (strcspn (c :: s) d)) d)) d := by
          rw [hruns]
          have hz : strcspn (c :: s) d = 0 := by omega
          simp [hz]
        rw [hr] at hcap hlen ⊢
        simp only [h0, if_false]
        exact ih _ k _ (by simp only [List.length_cons] at hfuel hnext; omega) hcap hlen

/-- Below the cap, the tokenizer returns the number of runs and leaves them,
followed by the end marker, at the front of the array. -/
theorem string_token_eq_runs (s d : List Char) (args : List Ptr)
    (hcap : (token_runs s d).length < MAX_ARGS)
    (hlen : (token_runs s d).length < args.length) :
    string_token s d args
      = some ((token_runs s d).length,
          (token_runs s d).map Ptr.str ++ Ptr.null :: args.drop ((token_runs s d).length + 1),
          []) := by
  have h := string_token_loop_runs d ((s.drop (strspn s d)).length + 1) (s.drop (strspn s d)) 0 args
    (by omega) (by rw [token_runs_drop_strspn]; omega) (by rw [token_runs_drop_strspn]; omega)
  rw [token_runs_drop_strspn] at h
  simp only [string_token, h, Nat.zero_add, List.take_zero, List.nil_append]
  congr 2
  have hl : ((token_runs s d).map Ptr.str).length = (token_runs s d).length := by simp
  rw [List.set_append_right _ _ (by omega), hl, Nat.sub_self]
  congr 1
  rcases hd : List.drop (token_runs s d).length args with _ | ⟨a, t⟩
  · have := congrArg List.length hd
    simp only [List.length_drop, List.length_nil] at this
    omega
  · have h2 : List.drop ((token_runs s d).length + 1) args = t := by
      rw [← List.drop_drop, hd]
      simp
    simp [h2]

theorem token_runs_all_delims (s d : List Char) (h : ∀ c ∈ s, c ∈ d) : token_runs s d = [] := by
  induction s with
  | nil => exact token_runs_nil d
  | cons c s ih =>
    have hc : c ∈ d := h c (List.mem_cons_self c s)
    rw [token_runs_drop_one (c :: s) d (by simp [strcspn, hc])]
    exact ih (fun x hx => h x (List.mem_cons_of_mem c hx))

/-! ## Tokenizer -/

/-- C1: when the input has fewer than `MAX_ARGS` maximal runs of non-delimiter
characters, `string_token` returns the number of runs and leaves in the array
exactly those runs, in order, followed by the end marker; every run is
non-empty and free of delimiters. The string `"  a   b\tc "` gives the three
tokens `a`, `b`, `c`, and a string made only of delimiters (the empty string
included) gives count 0 with the end marker in the first slot. -/
theorem string_token_returns_runs (s d : List Char) (args : List Ptr)
    (hargs : args.length = MAX_ARGS + 1)
    (hcap : (token_runs s d).length < MAX_ARGS) :
    string_token s d args
        = some ((token_runs s d).length,
            (token_runs s d).map Ptr.str
              ++ Ptr.null :: args.drop ((token_runs s d).length + 1), [])
      ∧ (∀ t ∈ token_runs s d, t ≠ [] ∧ ∀ c ∈ t, c ∉ d)
      ∧ (string_token "  a   b\tc ".toList default_delimiters fresh_args).map
            (fun r => (r.1, argv_of r.2.1))
          = some (3, some [['a'], ['b'], ['c']])
      ∧ ((∀ c ∈ s, c ∈ d) → string_token s d args = some (0, Ptr.null :: args.drop 1, [])) := by
  have hlen : (token_runs s d).length < args.length := by
    rw [hargs]
    omega
  refine ⟨string_token_eq_runs s d args hcap hlen, token_runs_mem s d, by decide, ?_⟩
  intro hall
  have h := string_token_eq_runs s d args hcap hlen
  rw [token_runs_all_delims s d hall] at h
  simpa using h

theorem string_token_returns_runs_witness :
    fresh_args.length = MAX_ARGS + 1
      ∧ (token_runs "ls -l  /tmp".toList default_delimiters).length < MAX_ARGS
      ∧ string_token "ls -l  /tmp".toList default_delimiters fresh_args
        = some (3, [Ptr.str "ls".toList, Ptr.str "-l".toList, Ptr.str "/tmp".toList]
            ++ List.replicate 48 Ptr.null, []) :=
  ⟨by decide, by decide,
    (string_token_returns_runs "ls -l  /tmp".toList default_delimiters fresh_args
      (by decide) (by decide)).1.trans (by decide)⟩

/-! ## Operators and separators in `execute_shell` -/

/-- C2 (code at the failing input): on the line `true && echo hi`, whatever
the platform reports, the shell launches exactly one process, `true` with the
vector `true && echo hi`; `echo` is never launched as a command of its own,
also when `true` exits with status 0. -/
theorem and_line_runs_one_command (platform : Platform) (pid : Int) :
    process_line platform pid "true && echo hi".toList Shell.init
      = some { Shell.init with
          executed := [["true".toList, "&&".toList, "echo".toList, "hi".toList]] } := by
  rfl

/-- C3 (code at the failing input): on the line `false || echo hi`, whatever
the platform reports, the shell launches exactly one process, `false` with
the vector `false || echo hi`; `echo` is never launched as a command of its
own, also when `false` exits with a non-zero status. -/
theorem or_line_runs_one_command (platform : Platform) (pid : Int) :
    process_line platform pid "false || echo hi".toList Shell.init
      = some { Shell.init with
          executed := [["false".toList, "||".toList, "echo".toList, "hi".toList]] } := by
  rfl

/-- C4 (code at the failing input): on the line `echo a ; echo b`, whatever
the platform reports, the shell launches exactly one process, `echo a`; the
second segment is consumed by the operator scan and `echo b` is never
launched. -/
theorem semicolon_line_runs_first_only (platform : Platform) (pid : Int) :
    process_line platform pid "echo a ; echo b".toList Shell.init
      = some { Shell.init with executed := [["echo".toList, "a".toList]] } := by
  rfl

/-! ## Processing an `alias` line -/

theorem strcspn_eq_length (t d : List Char) (h : ∀ c ∈ t, c ∉ d) : strcspn t d = t.length := by
  induction t with
  | nil => simp [strcspn]
  | cons a t ih =>
    have ha : a ∉ d := h a (List.mem_cons_self a t)
    simp [strcspn, ha, ih (fun x hx => h x (List.mem_cons_of_mem a hx))]

theorem strcspn_append_delim (t r d : List Char) (e : Char) (h : ∀ c ∈ t, c ∉ d) (he : e ∈ d) :
    strcspn (t ++ e :: r) d = t.length := by
  induction t with
  | nil => simp [strcspn, he]
  | cons a t ih =>
    have ha : a ∉ d := h a (List.mem_cons_self a t)
    simp [strcspn, ha, ih (fun x hx => h x (List.mem_cons_of_mem a hx))]

theorem token_runs_single (t d : List Char) (hne : t ≠ []) (h : ∀ c ∈ t, c ∉ d) :
    token_runs t d = [t] := by
  rw [token_runs_eq, strcspn_eq_length t d h]
  simp [token_runs_nil, List.filter_cons, hne]

theorem token_runs_append_delim (t r d : List Char) (e : Char) (hne : t ≠ [])
    (h : ∀ c ∈ t, c ∉ d) (he : e ∈ d) :
    token_runs (t ++ e :: r) d = t :: token_runs r d := by
  rw [token_runs_eq, strcspn_append_delim t r d e h he]
  simp [List.filter_cons, hne]

theorem argv_of_map_str (v : List (List Char)) (rest : List Ptr) :
    argv_of (v.map Ptr.str ++ Ptr.null :: rest) = some v := by
  induction v with
  | nil => simp [argv_of]
  | cons a v ih => simp [argv_of, ih]

theorem strtok_plain (l d : List Char) (hne : l ≠ []) (h : ∀ c ∈ l, c ∉ d) :
    strtok l d = (some l, []) := by
  cases l with
  | nil => exact absurd rfl hne
  | cons a l =>
    have ha : a ∉ d := h a (List.mem_cons_self a l)
    have hs : strspn (a :: l) d = 0 := by simp [strspn, ha]
    have hc := strcspn_eq_length (a :: l) d h
    simp only [strtok, hs, List.drop_zero, hc]
    simp

/-- A non-empty line free of NUL, newline, `#` and `;` reaches the `;` loop
whole, as its only segment. -/
theorem process_line_plain (platform : Platform) (pid : Int) (l : List Char) (st : Shell)
    (hne : l ≠ []) (hp : plain_line l) :
    process_line platform pid l st
      = command_loop platform pid (l.length + 1) (some l) [] fresh_args st := by
  have h0 : strcspn l [Char.ofNat 0] = l.length :=
    strcspn_eq_length l _ (fun c hc hm => hp c hc (by simp only [List.mem_singleton] at hm; simp [hm]))
  have h1 : strcspn l ['\n'] = l.length :=
    strcspn_eq_length l _ (fun c hc hm => hp c hc (by simp only [List.mem_singleton] at hm; simp [hm]))
  have h2 : strcspn l ['#'] = l.length :=
    strcspn_eq_length l _ (fun c hc hm => hp c hc (by simp only [List.mem_singleton] at hm; simp [hm]))
  have h3 : strtok l [';'] = (some l, []) :=
    strtok_plain l _ hne (fun c hc hm => hp c hc (by simp only [List.mem_singleton] at hm; simp [hm]))
  have hl : l.length ≠ 0 := by
    intro h
    exact hne (List.length_eq_zero.mp h)
  simp only [process_line, handle_comment, h0, List.take_length, h1, h2, h3, hl, if_false]

/-- A single-segment line whose first token is `alias` is dispatched to the
builtin and nothing else happens. -/
theorem command_loop_alias (platform : Platform) (pid : Int) (fuel : Nat) (l : List Char)
    (as : List (List Char)) (st : Shell)
    (hne : l ≠ []) (hlen : l.length < 1024)
    (hruns : token_runs l default_delimiters = "alias".toList :: as)
    (hcap : as.length + 1 < MAX_ARGS) :
    command_loop platform pid (fuel + 1) (some l) [] fresh_args st
      = some { st with
          aliases := (handle_alias_command ("alias".toList :: as) st.aliases).aliases,
          out := st.out ++ (handle_alias_command ("alias".toList :: as) st.aliases).out,
          err := st.err ++ (handle_alias_command ("alias".toList :: as) st.aliases).err } := by
  have hpos : 0 < l.length := List.length_pos.mpr hne
  have htok := string_token_eq_runs l default_delimiters fresh_args
    (by rw [hruns]; simpa using hcap)
    (by rw [hruns]; simp only [List.length_cons, fresh_args, List.length_replicate]
        unfold MAX_ARGS at hcap ⊢
        omega)
  rw [hruns] at htok
  have hb : is_builtin_command "alias".toList = some true := by decide
  have hv : is_variable "alias".toList ['#'] = false := by decide
  have hst : strtok [] [';'] = (none, []) := by decide
  simp only [command_loop, hpos, hlen, and_self, if_true, htok, List.length_cons,
    Nat.succ_pos, gt_iff_lt, List.map_cons, List.cons_append, argv_of, argv_of_map_str, hv,
    hb, hst, Bool.false_eq_true, if_false, List.append_nil]

theorem alias_define_line_facts (name value : List Char)
    (hn : plain_token name) (hv : plain_token value) :
    alias_define_line name value ≠ []
      ∧ plain_line (alias_define_line name value)
      ∧ token_runs (alias_define_line name value) default_delimiters
          = ["alias".toList, name, value] := by
  have hnd : ∀ c ∈ name, c ∉ default_delimiters := by
    intro c hc hm
    apply hn.2 c hc
    simp only [default_delimiters, List.mem_cons, List.mem_singleton, List.not_mem_nil,
      or_false] at hm
    rcases hm with h | h | h <;> simp [h]
  have hvd : ∀ c ∈ value, c ∉ default_delimiters := by
    intro c hc hm
    apply hv.2 c hc
    simp only [default_delimiters, List.mem_cons, List.mem_singleton, List.not_mem_nil,
      or_false] at hm
    rcases hm with h | h | h <;> simp [h]
  refine ⟨by simp [alias_define_line], ?_, ?_⟩
  · intro c hc hm
    simp only [alias_define_line, List.mem_append, List.mem_cons] at hc
    rcases hc with (hc | hc) | hc | hc
    · have : ∀ x ∈ "alias ".toList, x ∉ ['\n', ';', '#', Char.ofNat 0] := by decide
      exact this c hc hm
    · apply hn.2 c hc
      simp only [List.mem_cons, List.mem_singleton, List.not_mem_nil, or_false] at hm
      rcases hm with h | h | h | h <;> simp [h]
    · subst hc
      revert hm
      decide
    · apply hv.2 c hc
      simp only [List.mem_cons, List.mem_singleton, List.not_mem_nil, or_false] at hm
      rcases hm with h | h | h | h <;> simp [h]
  · have h1 : alias_define_line name value
        = "alias".toList ++ ' ' :: (name ++ ' ' :: value) := by
      simp [alias_define_line]
    rw [h1, token_runs_append_delim _ _ _ _ (by decide) (by decide) (by decide),
      token_runs_append_delim _ _ _ _ hn.1 hnd (by decide),
      token_runs_single _ _ hv.1 hvd]

theorem alias_query_line_facts (name : List Char) (hn : plain_token name) :
    alias_query_line name ≠ []
      ∧ plain_line (alias_query_line name)
      ∧ token_runs (alias_query_line name) default_delimiters = ["alias".toList, name] := by
  have hnd : ∀ c ∈ name, c ∉ default_delimiters := by
    intro c hc hm
    apply hn.2 c hc
    simp only [default_delimiters, List.mem_cons, List.mem_singleton, List.not_mem_nil,
      or_false] at hm
    rcases hm with h | h | h <;> simp [h]
  refine ⟨by simp [alias_query_line], ?_, ?_⟩
  · intro c hc hm
    simp only [alias_query_line, List.mem_append] at hc
    rcases hc with hc | hc
    · have : ∀ x ∈ "alias ".toList, x ∉ ['\n', ';', '#', Char.ofNat 0] := by decide
      exact this c hc hm
    · apply hn.2 c hc
      simp only [List.mem_cons, List.mem_singleton, List.not_mem_nil, or_false] at hm
      rcases hm with h | h | h | h <;> simp [h]
  · have h1 : alias_query_line name = "alias".toList ++ ' ' :: name := by
      simp [alias_query_line]
    rw [h1, token_runs_append_delim _ _ _ _ (by decide) (by decide) (by decide),
      token_runs_single _ _ hn.1 hnd]

theorem alias_show_absent (name : List Char) (aliases : List Alias)
    (h : ∀ a ∈ aliases, a.alias_name ≠ name) :
    alias_show name aliases = alias_not_found name := by
  induction aliases with
  | nil => rfl
  | cons a rest ih =>
    have ha : name ≠ a.alias_name := fun e => h a (List.mem_cons_self a rest) e.symm
    simp only [alias_show, ha, if_false]
    exact ih (fun x hx => h x (List.mem_cons_of_mem a hx))

theorem alias_show_append_first (name : List Char) (aliases more : List Alias) (b : Alias)
    (h : ∀ a ∈ aliases, a.alias_name ≠ name) (hb : b.alias_name = name) :
    alias_show name (aliases ++ b :: more) = alias_line b := by
  induction aliases with
  | nil => simp [alias_show, hb]
  | cons a rest ih =>
    have ha : name ≠ a.alias_name := fun e => h a (List.mem_cons_self a rest) e.symm
    simp only [List.cons_append, alias_show, ha, if_false]
    exact ih (fun x hx => h x (List.mem_cons_of_mem a hx))

/-- The line `alias NAME VALUE`, read by the shell. -/
theorem process_alias_define_line (platform : Platform) (pid : Int) (st : Shell)
    (name value : List Char) (hn : plain_token name) (hv : plain_token value)
    (hlen : (alias_define_line name value).length < 1024) :
    process_line platform pid (alias_define_line name value) st
      = some { st with
          aliases := (handle_alias_command ["alias".toList, name, value] st.aliases).aliases,
          out := st.out ++ (handle_alias_command ["alias".toList, name, value] st.aliases).out,
          err := st.err ++ (handle_alias_command ["alias".toList, name, value] st.aliases).err } := by
  obtain ⟨hne, hp, hr⟩ := alias_define_line_facts name value hn hv
  rw [process_line_plain platform pid _ st hne hp]
  exact command_loop_alias platform pid _ _ [name, value] st hne hlen hr
    (by simp [MAX_ARGS])

/-- The line `alias NAME`, read by the shell. -/
theorem process_alias_query_line (platform : Platform) (pid : Int) (st : Shell)
    (name : List Char) (hn : plain_token name)
    (hlen : (alias_query_line name).length < 1024) :
    process_line platform pid (alias_query_line name) st
      = some { st with out := st.out ++ alias_show name st.aliases } := by
  obtain ⟨hne, hp, hr⟩ := alias_query_line_facts name hn
  rw [process_line_plain platform pid _ st hne hp,
    command_loop_alias platform pid _ _ [name] st hne hlen hr (by simp [MAX_ARGS])]
  simp [handle_alias_command]

/-- C5 (counterexample): the line `alias foo "echo hi"` followed by
`alias foo` prints `alias foo='"echo'`, not `alias foo='echo hi'`: the value
stored is the third whitespace-separated token, quote character included. -/
theorem alias_quoted_value_is_split :
    (process_lines (always 0) 1 ["alias foo \"echo hi\"".toList, "alias foo".toList]
        Shell.init).map Shell.out = some "alias foo='\"echo'\n".toList
      ∧ (process_lines (always 0) 1 ["alias foo \"echo hi\"".toList, "alias foo".toList]
        Shell.init).map Shell.out ≠ some "alias foo='echo hi'\n".toList := by
  decide

/-- C5 (amended): for a NAME that is a single plain token with the line
`alias NAME` shorter than 1024 characters. (1) For a VALUE that is a single
plain token, with the line `alias NAME VALUE` shorter than 1024 characters and
a table that has room and no entry for NAME: the line `alias NAME VALUE`
followed by the line `alias NAME` appends the entry and writes exactly
`alias NAME='VALUE'` and a newline to the output. (2) On every table without
an entry for NAME, full or not, the line `alias NAME` writes exactly
`Alias 'NAME' not found.` and a newline, and no alias line. -/
theorem alias_define_then_query (platform : Platform) (pid : Int) (name : List Char)
    (hn : plain_token name) (hq : (alias_query_line name).length < 1024) :
    (∀ (st : Shell) (value : List Char), plain_token value →
        (alias_define_line name value).length < 1024 →
        st.run = Run.running →
        st.aliases.length < MAX_ALIASES →
        (∀ a ∈ st.aliases, a.alias_name ≠ name) →
        process_lines platform pid [alias_define_line name value, alias_query_line name] st
          = some { st with
              aliases := st.aliases ++ [⟨name, value⟩],
              out := st.out
                ++ ("alias ".toList ++ name ++ "='".toList ++ value ++ "'\n".toList) })
      ∧ (∀ st : Shell, (∀ a ∈ st.aliases, a.alias_name ≠ name) →
        process_line platform pid (alias_query_line name) st
          = some { st with
              out := st.out ++ ("Alias '".toList ++ name ++ "' not found.\n".toList) }) := by
  constructor
  · intro st value hv hlen hrun hroom hfresh
    have hroom2 : ¬ (st.aliases.length ≥ MAX_ALIASES) := by omega
    simp only [process_lines, hrun, process_alias_define_line platform pid st name value hn hv hlen,
      process_alias_query_line platform pid _ name hn hq, handle_alias_command, hroom2, if_false,
      List.append_nil]
    rw [alias_show_append_first name st.aliases [] ⟨name, value⟩ hfresh rfl]
    rfl
  · intro st hfresh
    rw [process_alias_query_line platform pid st name hn hq, alias_show_absent name _ hfresh]
    rfl

theorem alias_define_then_query_witness :
    process_line (always 0) 1 (alias_query_line "ll".toList)
        { Shell.init with aliases := List.replicate 50 ⟨"la".toList, "ls".toList⟩ }
      = some { Shell.init with
          aliases := List.replicate 50 ⟨"la".toList, "ls".toList⟩,
          out := "Alias 'll' not found.\n".toList } :=
  (alias_define_then_query (always 0) 1 "ll".toList (by decide) (by decide)).2
    { Shell.init with aliases := List.replicate 50 ⟨"la".toList, "ls".toList⟩ } (by decide)

/-! ## The alias table -/

theorem alias_show_index (name : List Char) (aliases : List Alias) (i : Nat) (b : Alias)
    (hi : aliases[i]? = some b) (hb : b.alias_name = name)
    (hfirst : ∀ j, j < i → ∀ c, aliases[j]? = some c → c.alias_name ≠ name) :
    alias_show name aliases = alias_line b := by
  induction aliases generalizing i with
  | nil => simp at hi
  | cons a rest ih =>
    cases i with
    | zero =>
      simp only [List.getElem?_cons_zero, Option.some.injEq] at hi
      subst hi
      simp [alias_show, hb]
    | succ i =>
      have ha : name ≠ a.alias_name := fun e => hfirst 0 (Nat.succ_pos i) a (by simp) e.symm
      simp only [alias_show, ha, if_false]
      simp only [List.getElem?_cons_succ] at hi
      exact ih i hi (fun j hj c hc => hfirst (j + 1) (Nat.succ_lt_succ hj) c (by simpa using hc))

theorem alias_show_present (name : List Char) (aliases : List Alias)
    (h : ∃ a ∈ aliases, a.alias_name = name) :
    ∃ b ∈ aliases, b.alias_name = name ∧ alias_show name aliases = alias_line b := by
  induction aliases with
  | nil => simp at h
  | cons a rest ih =>
    by_cases ha : name = a.alias_name
    · exact ⟨a, List.mem_cons_self a rest, ha.symm, by simp [alias_show, ha]⟩
    · obtain ⟨x, hx, hxn⟩ := h
      have hx2 : x ∈ rest := by
        rcases List.mem_cons.mp hx with rfl | hx2
        · exact absurd hxn.symm ha
        · exact hx2
      obtain ⟨b, hb, hbn, hshow⟩ := ih ⟨x, hx2, hxn⟩
      exact ⟨b, List.mem_cons_of_mem a hb, hbn, by simp [alias_show, ha, hshow]⟩

theorem alias_line_ne_not_found (b : Alias) (name : List Char) :
    alias_line b ≠ alias_not_found name := by
  intro h
  have h2 := congrArg List.head? h
  revert h2
  simp [alias_line, alias_not_found]

/-- C6: the one-argument form `alias NAME` writes `alias NAME='EXPANSION'`
and a newline for the entry of least index whose name equals NAME, and writes
`Alias 'NAME' not found.` and a newline exactly when no entry has that name;
after NAME, absent before, is defined and then defined again with another
value, the query still writes the first value. -/
theorem alias_query_earliest_entry (a0 name : List Char) (aliases : List Alias) :
    (∀ (i : Nat) (b : Alias), aliases[i]? = some b → b.alias_name = name →
        (∀ j, j < i → ∀ c : Alias, aliases[j]? = some c → c.alias_name ≠ name) →
        (handle_alias_command [a0, name] aliases).out
          = "alias ".toList ++ name ++ "='".toList ++ b.command ++ "'\n".toList)
      ∧ ((handle_alias_command [a0, name] aliases).out
            = "Alias '".toList ++ name ++ "' not found.\n".toList
          ↔ ∀ a ∈ aliases, a.alias_name ≠ name)
      ∧ (∀ a1 a2 v1 v2 : List Char, aliases.length < MAX_ALIASES →
          (∀ a ∈ aliases, a.alias_name ≠ name) →
          (handle_alias_command [a0, name]
            (handle_alias_command [a2, name, v2]
              (handle_alias_command [a1, name, v1] aliases).aliases).aliases).out
            = "alias ".toList ++ name ++ "='".toList ++ v1 ++ "'\n".toList) := by
  refine ⟨?_, ?_, ?_⟩
  · intro i b hi hb hfirst
    have h := alias_show_index name aliases i b hi hb hfirst
    subst hb
    exact h
  · constructor
    · intro hout a ha hna
      obtain ⟨b, _, _, hshow⟩ := alias_show_present name aliases ⟨a, ha, hna⟩
      have hout2 : alias_show name aliases = alias_not_found name := hout
      rw [hshow] at hout2
      exact alias_line_ne_not_found b name hout2
    · intro h
      exact alias_show_absent name aliases h
  · intro a1 a2 v1 v2 hroom hfresh
    have hroom2 : ¬ (aliases.length ≥ MAX_ALIASES) := by omega
    simp only [handle_alias_command, hroom2, if_false]
    split
    · exact alias_show_append_first name aliases [] ⟨name, v1⟩ hfresh rfl
    · have := alias_show_append_first name aliases [⟨name, v2⟩] ⟨name, v1⟩ hfresh rfl
      have e : aliases ++ [(⟨name, v1⟩ : Alias)] ++ [(⟨name, v2⟩ : Alias)]
          = aliases ++ [⟨name, v1⟩, ⟨name, v2⟩] := by simp
      rw [e]
      exact this

theorem alias_query_earliest_entry_witness :
    (handle_alias_command ["alias".toList, "ll".toList]
        [⟨"la".toList, "ls -a".toList⟩, ⟨"ll".toList, "ls -l".toList⟩,
          ⟨"ll".toList, "ls".toList⟩]).out
      = "alias ll='ls -l'\n".toList :=
  (alias_query_earliest_entry "alias".toList "ll".toList
    [⟨"la".toList, "ls -a".toList⟩, ⟨"ll".toList, "ls -l".toList⟩,
      ⟨"ll".toList, "ls".toList⟩]).1 1 ⟨"ll".toList, "ls -l".toList⟩ rfl rfl (by decide)

/-- C7: with at most `MAX_ALIASES` entries in the table, `alias NAME VALUE`
appends the single entry (NAME, VALUE) at the end when the count is below
`MAX_ALIASES` and leaves the table as it is when the count equals
`MAX_ALIASES`; after any call the count is still at most `MAX_ALIASES`; the
zero- and one-argument forms leave the table as it is. -/
theorem alias_define_appends_or_keeps (a0 name value : List Char) (more : List (List Char))
    (aliases : List Alias) (hcount : aliases.length ≤ MAX_ALIASES) :
    (aliases.length < MAX_ALIASES →
        (handle_alias_command (a0 :: name :: value :: more) aliases).aliases
          = aliases ++ [⟨name, value⟩])
      ∧ (aliases.length = MAX_ALIASES →
        (handle_alias_command (a0 :: name :: value :: more) aliases).aliases = aliases)
      ∧ (∀ args, (handle_alias_command args aliases).aliases.length ≤ MAX_ALIASES)
      ∧ (handle_alias_command [a0] aliases).aliases = aliases
      ∧ (handle_alias_command [a0, name] aliases).aliases = aliases := by
  refine ⟨?_, ?_, ?_, rfl, rfl⟩
  · intro h
    have h2 : ¬ (aliases.length ≥ MAX_ALIASES) := by omega
    simp [handle_alias_command, h2]
  · intro h
    have h2 : aliases.length ≥ MAX_ALIASES := by omega
    simp [handle_alias_command, h2]
  · intro args
    unfold handle_alias_command
    split
    · exact hcount
    · exact hcount
    · exact hcount
    · split
      · exact hcount
      · simp only [List.length_append, List.length_singleton]
        omega

theorem alias_define_appends_or_keeps_witness :
    (handle_alias_command ["alias".toList, "ll".toList, "ls".toList]
        [⟨"la".toList, "ls -a".toList⟩]).aliases
      = [⟨"la".toList, "ls -a".toList⟩, ⟨"ll".toList, "ls".toList⟩] :=
  (alias_define_appends_or_keeps "alias".toList "ll".toList "ls".toList []
    [⟨"la".toList, "ls -a".toList⟩] (by decide)).1 (by decide)

/-! ## Variable substitution -/

theorem is_variable_iff (a b : List Char) : is_variable a b = true ↔ a = b := by
  simp only [is_variable, Bool.and_eq_true, beq_iff_eq, List.take_length,
    Option.isNone_iff_eq_none, List.get?_eq_none]
  constructor
  · rintro ⟨h1, h2⟩
    rw [List.take_of_length_le h2] at h1
    exact h1
  · rintro rfl
    exact ⟨List.take_length _, Nat.le_refl _⟩

theorem replace_slot_no_match (tok : List Char) (vars : List Variable)
    (h : ∀ v ∈ vars, v.name ≠ tok) : replace_slot tok vars = tok := by
  induction vars with
  | nil => rfl
  | cons v rest ih =>
    have hv : ¬ (is_variable tok v.name = true) := by
      rw [is_variable_iff]
      exact fun e => h v (List.mem_cons_self v rest) e.symm
    simp only [replace_slot, hv, if_false]
    exact ih (fun x hx => h x (List.mem_cons_of_mem v hx))

theorem replace_variables_length (args : List (List Char)) (vars : List Variable) :
    (replace_variables args vars).length = args.length := by
  induction args with
  | nil => rfl
  | cons a rest ih => simp [replace_variables, ih]

theorem handle_dollar_dollar_length (args : List (List Char)) (pid : Int) :
    (handle_dollar_dollar args pid).length = args.length := by
  induction args with
  | nil => rfl
  | cons a rest ih => simp [handle_dollar_dollar, ih]

theorem replace_variables_get (args : List (List Char)) (vars : List Variable) (i : Nat) :
    (replace_variables args vars)[i]? = (args[i]?).map (fun a => replace_slot a vars) := by
  induction args generalizing i with
  | nil => simp [replace_variables]
  | cons a rest ih =>
    cases i with
    | zero => simp [replace_variables]
    | succ i => simpa [replace_variables] using ih i

theorem handle_dollar_dollar_eq_map (args : List (List Char)) (pid : Int) :
    handle_dollar_dollar args pid
      = args.map (fun a => if a = ['$', '$'] then pid_str pid else a) := by
  induction args with
  | nil => rfl
  | cons a rest ih =>
    by_cases h : a = ['$', '$']
    · have h2 : is_variable a ['$', '$'] = true := (is_variable_iff _ _).mpr h
      rw [handle_dollar_dollar, ih, List.map_cons, if_pos h2, if_pos h]
    · have h2 : ¬ (is_variable a ['$', '$'] = true) := fun e => h ((is_variable_iff _ _).mp e)
      rw [handle_dollar_dollar, ih, List.map_cons, if_neg h2, if_neg h]

/-- When no value of the table is itself a name of the table, a slot that
matches is given the value of the first entry whose name it equals. -/
theorem replace_slot_first_match (tok : List Char) (vars : List Variable)
    (hsep : ∀ v ∈ vars, ∀ w ∈ vars, v.value ≠ w.name) :
    replace_slot tok vars
      = ((vars.find? (fun v => decide (v.name = tok))).map Variable.value).getD tok := by
  induction vars generalizing tok with
  | nil => rfl
  | cons v rest ih =>
    by_cases h : v.name = tok
    · have hv : is_variable tok v.name = true := (is_variable_iff _ _).mpr h.symm
      have hrest : replace_slot v.value rest = v.value :=
        replace_slot_no_match v.value rest (fun w hw e =>
          hsep v (List.mem_cons_self v rest) w (List.mem_cons_of_mem v hw) e.symm)
      rw [replace_slot, if_pos hv, hrest]
      simp [h]
    · have hv : ¬ (is_variable tok v.name = true) := fun e => h ((is_variable_iff _ _).mp e).symm
      simp only [replace_slot, hv, if_false, List.find?_cons, h, decide_False]
      exact ih tok (fun x hx w hw =>
        hsep x (List.mem_cons_of_mem v hx) w (List.mem_cons_of_mem v hw))

/-- When no value of the table is the name of a later entry, a slot is given
the value of the first entry whose name it equals, or is left as it is. -/
theorem replace_slot_pairwise (tok : List Char) (vars : List Variable)
    (hsep : vars.Pairwise (fun v w => v.value ≠ w.name)) :
    replace_slot tok vars
      = ((vars.find? (fun v => decide (v.name = tok))).map Variable.value).getD tok := by
  induction vars generalizing tok with
  | nil => rfl
  | cons v rest ih =>
    obtain ⟨hv1, hrest1⟩ := List.pairwise_cons.mp hsep
    by_cases h : v.name = tok
    · have hv : is_variable tok v.name = true := (is_variable_iff _ _).mpr h.symm
      have hrest : replace_slot v.value rest = v.value :=
        replace_slot_no_match v.value rest (fun w hw e => hv1 w hw e.symm)
      rw [replace_slot, if_pos hv, hrest]
      simp [h]
    · have hv : ¬ (is_variable tok v.name = true) := fun e => h ((is_variable_iff _ _).mp e).symm
      simp only [replace_slot, hv, if_false, List.find?_cons, h, decide_False]
      exact ih tok hrest1

/-- C8 (counterexample): with the table `x = y`, `y = z`, the vector `[x]`
becomes `[z]`, not `[y]`, the value of the first variable named `x`: after a
slot is replaced, the scan of the table goes on against the new content. -/
theorem replace_variables_rescans_value :
    replace_variables [['x']] [⟨['x'], ['y']⟩, ⟨['y'], ['z']⟩] = [['z']]
      ∧ replace_variables [['x']] [⟨['x'], ['y']⟩, ⟨['y'], ['z']⟩] ≠ [['y']] := by
  decide

/-- C8 (amended): for every vector and every table in which no variable's
value is the name of a later variable, `replace_variables` gives each token
that equals the name of some variable the value of the first variable, in
table order, whose name equals the token, and leaves every other token as it
is; on the empty table, the one `execute_shell` passes, the vector comes back
unchanged. -/
theorem replace_variables_first_match (args : List (List Char)) (vars : List Variable)
    (hsep : vars.Pairwise (fun v w => v.value ≠ w.name)) :
    replace_variables args vars
        = args.map (fun tok =>
            ((vars.find? (fun v => decide (v.name = tok))).map Variable.value).getD tok)
      ∧ (∀ (i : Nat) (tok : List Char) (v : Variable), args[i]? = some tok →
          vars.find? (fun w => decide (w.name = tok)) = some v →
          (replace_variables args vars)[i]? = some v.value)
      ∧ (∀ (i : Nat) (tok : List Char), args[i]? = some tok →
          (∀ w ∈ vars, w.name ≠ tok) → (replace_variables args vars)[i]? = some tok)
      ∧ replace_variables args [] = args := by
  refine ⟨?_, ?_, ?_, ?_⟩
  · induction args with
    | nil => rfl
    | cons a rest ih => rw [replace_variables, replace_slot_pairwise a vars hsep, ih, List.map_cons]
  · intro i tok v hi hfind
    rw [replace_variables_get, hi, Option.map_some', replace_slot_pairwise tok vars hsep, hfind]
    rfl
  · intro i tok hi hno
    rw [replace_variables_get, hi, Option.map_some', replace_slot_no_match tok vars hno]
  · induction args with
    | nil => rfl
    | cons a rest ih => rw [replace_variables, ih, replace_slot]

theorem replace_variables_first_match_witness :
    replace_variables ["echo".toList, "HOME".toList, "USER".toList]
        [⟨"HOME".toList, "/root".toList⟩, ⟨"USER".toList, "me".toList⟩,
          ⟨"HOME".toList, "/tmp".toList⟩]
      = ["echo".toList, "/root".toList, "me".toList] :=
  (replace_variables_first_match ["echo".toList, "HOME".toList, "USER".toList]
    [⟨"HOME".toList, "/root".toList⟩, ⟨"USER".toList, "me".toList⟩,
      ⟨"HOME".toList, "/tmp".toList⟩] (by decide)).1.trans (by decide)

/-- C9: both substitution passes keep the length of the vector, and at every
position a token that equals no variable name is left as it is by
`replace_variables`, a token other than `$$` is left as it is by
`handle_dollar_dollar`, and a token that is neither is left as it is by the
two passes in sequence. -/
theorem substitution_passes_frame (args : List (List Char)) (vars : List Variable)
    (pid : Int) :
    (replace_variables args vars).length = args.length
      ∧ (handle_dollar_dollar args pid).length = args.length
      ∧ (handle_dollar_dollar (replace_variables args vars) pid).length = args.length
      ∧ ∀ (i : Nat) (a : List Char), args[i]? = some a →
          ((∀ v ∈ vars, v.name ≠ a) → (replace_variables args vars)[i]? = some a)
          ∧ (a ≠ ['$', '$'] → (handle_dollar_dollar args pid)[i]? = some a)
          ∧ ((∀ v ∈ vars, v.name ≠ a) → a ≠ ['$', '$'] →
              (handle_dollar_dollar (replace_variables args vars) pid)[i]? = some a) := by
  refine ⟨replace_variables_length args vars, handle_dollar_dollar_length args pid, ?_, ?_⟩
  · rw [handle_dollar_dollar_length, replace_variables_length]
  · intro i a hi
    have hr : (∀ v ∈ vars, v.name ≠ a) → (replace_variables args vars)[i]? = some a := by
      intro h
      rw [replace_variables_get, hi]
      simp [replace_slot_no_match a vars h]
    refine ⟨hr, ?_, ?_⟩
    · intro h
      rw [handle_dollar_dollar_eq_map]
      simp [hi, h]
    · intro h1 h2
      rw [handle_dollar_dollar_eq_map]
      simp [hr h1, h2]

theorem substitution_passes_frame_witness :
    (handle_dollar_dollar
        (replace_variables ["echo".toList, "HOME".toList, "$$".toList]
          [⟨"HOME".toList, "/root".toList⟩]) 77)[0]? = some "echo".toList :=
  ((substitution_passes_frame ["echo".toList, "HOME".toList, "$$".toList]
      [⟨"HOME".toList, "/root".toList⟩] 77).2.2.2 0 "echo".toList rfl).2.2
    (by decide) (by decide)

theorem format_d_length (pid : Int) (hlo : -(2 : Int) ^ 31 ≤ pid) (hhi : pid < (2 : Int) ^ 31) :
    (format_d pid).length ≤ 19 := by
  cases pid with
  | ofNat n =>
    have hn : n < 10 ^ 10 := by
      have : (n : Int) < 2 ^ 31 := hhi
      omega
    have := Nat.toDigitsCore_length 10 (by decide) (n + 1) n 10 hn (by decide)
    simp only [format_d, Nat.toDigits]
    omega
  | negSucc n =>
    have hn : n + 1 < 10 ^ 10 := by
      have h1 : -(2 : Int) ^ 31 ≤ Int.negSucc n := hlo
      rw [Int.negSucc_eq] at h1
      omega
    have := Nat.toDigitsCore_length 10 (by decide) (n + 1 + 1) (n + 1) 10 hn (by decide)
    simp only [format_d, Nat.toDigits, List.length_cons]
    omega

/-- C10: for a process id `pid` in the range of `int`, `handle_dollar_dollar`
replaces every token equal to `$$` by the decimal string of `pid` and leaves
every other token, such as `$$x` or `a$$`, as it is. -/
theorem handle_dollar_dollar_exact (args : List (List Char)) (pid : Int)
    (hlo : -(2 : Int) ^ 31 ≤ pid) (hhi : pid < (2 : Int) ^ 31) :
    handle_dollar_dollar args pid
        = args.map (fun a => if a = "$$".toList then format_d pid else a)
      ∧ format_d pid = (toString pid).toList
      ∧ handle_dollar_dollar ["$$x".toList, "a$$".toList, "$$".toList] pid
        = ["$$x".toList, "a$$".toList, format_d pid] := by
  have hp : pid_str pid = format_d pid := by
    unfold pid_str
    exact List.take_of_length_le (format_d_length pid hlo hhi)
  have hm := handle_dollar_dollar_eq_map args pid
  rw [hp] at hm
  refine ⟨hm, ?_, ?_⟩
  · cases pid with
    | ofNat n => simp [format_d, toString, Nat.repr, List.asString]
    | negSucc n => simp [format_d, toString, Nat.repr, List.asString]
  · rw [handle_dollar_dollar_eq_map, hp]
    simp

theorem handle_dollar_dollar_exact_witness :
    handle_dollar_dollar ["echo".toList, "$$".toList] 4242
      = ["echo".toList, "4242".toList] :=
  (handle_dollar_dollar_exact ["echo".toList, "$$".toList] 4242 (by decide) (by decide)).1.trans
    (by decide)

/-! ## Termination of the shell loops -/

theorem strtok_rest_le (rest d : List Char) : (strtok rest d).2.length ≤ rest.length := by
  unfold strtok
  rcases h : List.drop (strspn rest d) rest with _ | ⟨c, s⟩
  · simp
  · have hl := congrArg List.length h
    simp only [List.length_drop, List.length_cons] at hl ⊢
    omega

theorem strtok_rest_lt (rest d : List Char) (h : (strtok rest d).1.isSome) :
    (strtok rest d).2.length < rest.length := by
  unfold strtok at h ⊢
  rcases hd : List.drop (strspn rest d) rest with _ | ⟨c, s⟩
  · rw [hd] at h
    simp at h
  · have hl := congrArg List.length hd
    simp only [List.length_drop, List.length_cons] at hl ⊢
    omega

theorem chain_loop_none (platform : Platform) (pid : Int) (fuel : Nat) (rest : List Char)
    (argv : List (List Char)) (status : Int) (st : Shell) :
    chain_loop platform pid fuel none rest argv status st = some (rest, argv, st) := by
  cases fuel <;> simp [chain_loop]

/-- With more fuel than unread text the operator loop returns, and it never
moves the cursor back. -/
theorem chain_loop_total (platform : Platform) (pid : Int) (fuel : Nat)
    (op : Option (List Char)) (rest : List Char) (argv : List (List Char)) (status : Int)
    (st : Shell) (hfuel : op.isSome → rest.length < fuel) :
    ∃ r, chain_loop platform pid fuel op rest argv status st = some r
      ∧ r.1.length ≤ rest.length := by
  induction fuel generalizing op rest argv status st with
  | zero =>
    cases op with
    | none => exact ⟨_, chain_loop_none platform pid _ rest argv status st, Nat.le_refl _⟩
    | some o => exact absurd (hfuel rfl) (Nat.not_lt_zero _)
  | succ fuel ih =>
    cases op with
    | none => exact ⟨_, chain_loop_none platform pid _ rest argv status st, Nat.le_refl _⟩
    | some o =>
      have hf := hfuel rfl
      simp only [chain_loop]
      split
      · exact ⟨_, rfl, Nat.le_refl _⟩
      · split
        · exact ⟨_, rfl, Nat.le_refl _⟩
        · have h1 := strtok_rest_le rest [';']
          have h1s := strtok_rest_lt rest [';']
          split
          · rename_i t rest1 heq
            rw [heq] at h1 h1s
            have h2 := strtok_rest_le rest1 ['&', '|']
            have hlt : rest1.length < rest.length := h1s rfl
            obtain ⟨r, hr, hle⟩ := ih (strtok rest1 ['&', '|']).1 (strtok rest1 ['&', '|']).2
              (handle_dollar_dollar (replace_variables argv []) pid)
              (run_external platform (handle_dollar_dollar (replace_variables argv []) pid) st).1
              (run_external platform (handle_dollar_dollar (replace_variables argv []) pid) st).2
              (fun _ => by omega)
            exact ⟨r, hr, by omega⟩
          · rename_i rest1 heq
            rw [heq] at h1
            exact ⟨_, rfl, h1⟩

/-- With more fuel than unread text the `;` loop returns. -/
theorem command_loop_total (platform : Platform) (pid : Int) (fuel : Nat)
    (command : Option (List Char)) (rest : List Char) (args : List Ptr) (st : Shell)
    (hfuel : command.isSome → rest.length < fuel) :
    ∃ s, command_loop platform pid fuel command rest args st = some s := by
  induction fuel generalizing command rest args st with
  | zero =>
    cases command with
    | none => exact ⟨st, by simp [command_loop]⟩
    | some c => exact absurd (hfuel rfl) (Nat.not_lt_zero _)
  | succ fuel ih =>
    cases command with
    | none => exact ⟨st, by simp [command_loop]⟩
    | some c =>
      have hf := hfuel rfl
      obtain ⟨⟨n, args1, diag⟩, hr⟩ := string_token_total c default_delimiters args
      have h1 := strtok_rest_lt rest [';']
      have h2 := strtok_rest_le rest ['&', '|']
      simp only [command_loop, hr]
      split
      · split
        · split
          · exact ⟨_, rfl⟩
          · exact ⟨_, rfl⟩
          · split
            · exact ⟨_, rfl⟩
            · split
              · exact ⟨_, rfl⟩
              · exact ih _ _ _ _ (fun h => by have := h1 h; omega)
              · rename_i a0 as _ _ _ _
                have h3 := strtok_rest_lt rest ['&', '|']
                obtain ⟨⟨rest2, argv2, st2⟩, hc, hle⟩ := chain_loop_total platform pid fuel
                  (strtok rest ['&', '|']).1 (strtok rest ['&', '|']).2
                  (handle_dollar_dollar (replace_variables (a0 :: as) []) pid)
                  (run_external platform (handle_dollar_dollar (replace_variables (a0 :: as) []) pid)
                    { st with err := st.err ++ diag }).1
                  (run_external platform (handle_dollar_dollar (replace_variables (a0 :: as) []) pid)
                    { st with err := st.err ++ diag }).2
                  (fun h => by have := h3 h; omega)
                simp only [hc]
                have h4 := strtok_rest_le rest2 [';']
                have hle2 : rest2.length ≤ (strtok rest ['&', '|']).2.length := hle
                exact ih _ _ _ _ (fun h => by
                  have := strtok_rest_lt rest2 [';'] h
                  omega)
        · exact ih _ _ _ _ (fun h => by have := h1 h; omega)
      · exact ih _ _ _ _ (fun h => by have := h1 h; omega)

/-- The body of the shell loop returns on every input unit. -/
theorem process_line_total (platform : Platform) (pid : Int) (raw : List Char) (st : Shell) :
    ∃ s, process_line platform pid raw st = some s := by
  simp only [process_line]
  split
  · exact ⟨_, rfl⟩
  · exact command_loop_total platform pid _ _ _ _ _ (fun h => by
      have := strtok_rest_lt _ [';'] h
      omega)

/-! ## Exact matching of names -/

/-- C11: for every token and every name, the empty name included,
`is_variable token name` is true exactly when the two strings are equal; a
token that holds the name only as a proper prefix, suffix or inner substring
gives false. -/
theorem is_variable_exact (token name : List Char) :
    (is_variable token name = true ↔ token = name)
      ∧ (is_variable token [] = true ↔ token = [])
      ∧ (∀ pre post : List Char, token = pre ++ name ++ post → (pre ≠ [] ∨ post ≠ []) →
          is_variable token name = false) := by
  refine ⟨is_variable_iff token name, is_variable_iff token [], ?_⟩
  intro pre post htok hproper
  cases h : is_variable token name with
  | false => rfl
  | true =>
    exfalso
    have heq : token = name := (is_variable_iff token name).mp h
    have hlen := congrArg List.length htok
    rw [heq] at hlen
    simp only [List.length_append] at hlen
    rcases hproper with hp | hp
    · exact hp (List.length_eq_zero.mp (by omega))
    · exact hp (List.length_eq_zero.mp (by omega))

theorem is_variable_exact_witness :
    is_variable "$$x".toList "$$".toList = false :=
  (is_variable_exact "$$x".toList "$$".toList).2.2 [] "x".toList rfl (Or.inr (by decide))

/-! ## Executor statuses -/

/-- C16: `execute_command` returns the child's exit code, a value from 0 to
255, when the child exited (127 after a failed `execvp`), the sentinel -1 when
the child was ended by a signal, and the non-zero status 1, without reaching
`waitpid`, when `fork` fails. -/
theorem execute_command_statuses (o : ProcOutcome) :
    (∀ code, o = ProcOutcome.exited code →
        execute_command o = ((code % 256 : Nat) : Int)
          ∧ 0 ≤ execute_command o ∧ execute_command o ≤ 255
          ∧ (code ≤ 255 → execute_command o = (code : Int))
          ∧ execute_command_waits o = true)
      ∧ (o = ProcOutcome.exec_failed →
          execute_command o = 127 ∧ execute_command_waits o = true)
      ∧ (∀ sig, o = ProcOutcome.signaled sig →
          execute_command o = -1 ∧ execute_command_waits o = true)
      ∧ (o = ProcOutcome.fork_failed →
          execute_command o ≠ 0 ∧ execute_command_waits o = false) := by
  refine ⟨?_, ?_, ?_, ?_⟩
  · rintro code rfl
    refine ⟨rfl, ?_, ?_, ?_, rfl⟩
    · simp only [execute_command]
      omega
    · simp only [execute_command]
      omega
    · intro h
      simp only [execute_command]
      rw [Nat.mod_eq_of_lt (by omega)]
  · rintro rfl
    exact ⟨rfl, rfl⟩
  · rintro sig rfl
    exact ⟨rfl, rfl⟩
  · rintro rfl
    exact ⟨by decide, rfl⟩

theorem execute_command_statuses_witness :
    execute_command (ProcOutcome.exited 3) = 3 :=
  ((execute_command_statuses (ProcOutcome.exited 3)).1 3 rfl).2.2.2.1 (by decide)

/-! ## The tokenizer at its cap -/

theorem set_eq_take_cons_drop (l : List Ptr) (k : Nat) (v : Ptr) (h : k < l.length) :
    l.set k v = l.take k ++ v :: l.drop (k + 1) := by
  have h1 := List.take_append_drop (k + 1) (l.set k v)
  rw [set_take_succ l k v h, set_drop_gt l k (k + 1) v (Nat.lt_succ_self k)] at h1
  rw [← h1]
  simp

theorem free_args_strs (v : List (List Char)) (rest : List Ptr) :
    free_args (v.map Ptr.str ++ Ptr.null :: rest)
      = List.replicate v.length Ptr.freed ++ Ptr.null :: rest := by
  induction v with
  | nil => simp [free_args]
  | cons a v ih => simp [free_args, ih, List.replicate_succ]

/-- From `MAX_ARGS` runs on, the loop stops at the `MAX_ARGS`-th token: it
releases the slots and writes the diagnostic. -/
theorem string_token_loop_cap (d : List Char) (fuel : Nat) (input : List Char) (k : Nat)
    (args : List Ptr) (hfuel : input.length < fuel) (hk : k < MAX_ARGS)
    (hcap : MAX_ARGS ≤ k + (token_runs input d).length)
    (hlen : MAX_ARGS ≤ args.length) :
    string_token_loop fuel input d k args
      = some (MAX_ARGS,
          free_args (args.take k ++ ((token_runs input d).take (MAX_ARGS - k)).map Ptr.str
            ++ args.drop MAX_ARGS),
          too_many_arguments) := by
  induction fuel generalizing input k args with
  | zero => omega
  | succ fuel ih =>
    cases input with
    | nil =>
      rw [token_runs_nil] at hcap
      simp only [List.length_nil] at hcap
      omega
    | cons c s =>
      have hnext := next_length_lt c s d
      have hruns := token_runs_eq (c :: s) d
      rw [← token_runs_next] at hruns
      simp only [string_token_loop]
      by_cases h0 : strcspn (c :: s) d > 0
      · have hne : (List.take (strcspn (c :: s) d) (c :: s)) ≠ [] := by
          intro h
          have := congrArg List.length h
          simp only [List.length_take, List.length_cons, List.length_nil] at this
          have := strcspn_le (c :: s) d
          simp only [List.length_cons] at this
          omega
        have hr : token_runs (c :: s) d = List.take (strcspn (c :: s) d) (c :: s) ::
            token_runs ((c :: s).drop (strcspn (c :: s) d
              + strspn ((c :: s).drop (strcspn (c :: s) d)) d)) d := by
          rw [hruns]
          simp [List.filter_cons, hne]
        rw [hr] at hcap ⊢
        simp only [List.length_cons] at hcap
        have hsub : MAX_ARGS - k = (MAX_ARGS - (k + 1)) + 1 := by omega
        simp only [h0, if_true]
        by_cases hk1 : k + 1 ≥ MAX_ARGS
        · have hke : k + 1 = MAX_ARGS := by omega
          have hz : MAX_ARGS - (k + 1) = 0 := by omega
          simp only [hk1, if_true]
          rw [set_eq_take_cons_drop _ _ _ (by omega), hsub, hz, hke]
          simp
        · simp only [hk1, if_false]
          rw [ih _ (k + 1) _ (by simp only [List.length_cons] at hfuel hnext; omega)
            (by omega) (by omega) (by simp only [List.length_set]; omega)]
          rw [set_take_succ _ _ _ (by omega), set_drop_gt _ _ _ _ (by omega), hsub]
          simp
      · have hr : token_runs (c :: s) d =
            token_runs ((c :: s).drop (strcspn (c :: s) d
              + strspn ((c :: s).drop (strcspn (c :: s) d)) d)) d := by
          rw [hruns]
          have hz : strcspn (c :: s) d = 0 := by omega
          simp [hz]
        rw [hr] at hcap ⊢
        simp only [h0, if_false]
        exact ih _ k _ (by simp only [List.length_cons] at hfuel hnext; omega) hk hcap hlen

/-- From `MAX_ARGS` runs on, the tokenizer returns `MAX_ARGS` with every token
slot released and writes the diagnostic. -/
theorem string_token_at_cap (s d : List Char) (args : List Ptr)
    (hlast : args.drop MAX_ARGS = [Ptr.null])
    (hcap : MAX_ARGS ≤ (token_runs s d).length) :
    string_token s d args
      = some (MAX_ARGS, List.replicate MAX_ARGS Ptr.freed ++ [Ptr.null], too_many_arguments) := by
  have hlen : MAX_ARGS ≤ args.length := by
    have := congrArg List.length hlast
    simp only [List.length_drop, List.length_singleton] at this
    omega
  have h := string_token_loop_cap d ((s.drop (strspn s d)).length + 1) (s.drop (strspn s d)) 0
    args (by omega) (by decide) (by rw [token_runs_drop_strspn]; omega) hlen
  rw [token_runs_drop_strspn] at h
  have hl : (List.take MAX_ARGS (token_runs s d)).length = MAX_ARGS := by
    rw [List.length_take]
    omega
  simp only [string_token, h, List.take_zero, List.nil_append, Nat.sub_zero, hlast,
    free_args_strs, hl]
  congr 2

theorem tokens_line_runs (n : Nat) :
    token_runs (tokens_line n) default_delimiters = List.replicate n ['a'] := by
  induction n with
  | zero => simp [tokens_line, token_runs_nil]
  | succ n ih =>
    have h : tokens_line (n + 1) = ['a'] ++ ' ' :: tokens_line n := by
      simp [tokens_line, List.replicate_succ]
    rw [h, token_runs_append_delim _ _ _ _ (by decide) (by decide) (by decide), ih,
      List.replicate_succ]

/-- C12 (code at the failing input): on a segment of 50 tokens the tokenizer
hits its cap and returns the count 50, not 0, with the 50 token slots
released; the shell then takes the path for a positive count, not the
zero-token path (no `Invalid input length` is written), and reads the released
first slot. -/
theorem cap_returns_fifty (platform : Platform) (pid : Int) :
    string_token (tokens_line 50) default_delimiters fresh_args
        = some (50, List.replicate 50 Ptr.freed ++ [Ptr.null], too_many_arguments)
      ∧ process_line platform pid (tokens_line 50) Shell.init
        = some { Shell.init with err := too_many_arguments, run := Run.undefined } := by
  constructor
  · exact string_token_at_cap (tokens_line 50) default_delimiters fresh_args (by decide)
      (by rw [tokens_line_runs]; simp [MAX_ARGS])
  · have hne : tokens_line 50 ≠ [] := by decide
    have hp : plain_line (tokens_line 50) := by
      unfold plain_line
      decide
    have htok := string_token_at_cap (tokens_line 50) default_delimiters fresh_args (by decide)
      (by rw [tokens_line_runs]; simp [MAX_ARGS])
    have hlen : (tokens_line 50).length = 100 := by decide
    have hargv : argv_of (List.replicate MAX_ARGS Ptr.freed ++ [Ptr.null]) = none := by decide
    rw [process_line_plain platform pid _ _ hne hp]
    simp only [command_loop, hlen, htok, hargv]
    decide

/-- C13 (what the code does): on a 51-slot array whose last slot is `NULL`,
the overflow path (slots released, diagnostic written, count `MAX_ARGS`) is
taken as soon as the input has `MAX_ARGS` runs, so also at exactly 50 tokens;
with fewer runs the tokens are stored intact and nothing is written. -/
theorem overflow_from_fifty_tokens (s d : List Char) (args : List Ptr)
    (hlast : args.drop MAX_ARGS = [Ptr.null]) :
    (MAX_ARGS ≤ (token_runs s d).length →
        string_token s d args
          = some (MAX_ARGS, List.replicate MAX_ARGS Ptr.freed ++ [Ptr.null],
              too_many_arguments))
      ∧ ((token_runs s d).length < MAX_ARGS →
        string_token s d args
          = some ((token_runs s d).length,
              (token_runs s d).map Ptr.str
                ++ Ptr.null :: args.drop ((token_runs s d).length + 1), []))
      ∧ (token_runs (tokens_line 50) default_delimiters).length = 50
      ∧ (token_runs (tokens_line 51) default_delimiters).length = 51 := by
  have hlen : args.length = MAX_ARGS + 1 := by
    have := congrArg List.length hlast
    simp only [List.length_drop, List.length_singleton] at this
    omega
  refine ⟨string_token_at_cap s d args hlast, ?_, ?_, ?_⟩
  · intro h
    exact string_token_eq_runs s d args h (by omega)
  · rw [tokens_line_runs]
    simp
  · rw [tokens_line_runs]
    simp

theorem overflow_from_fifty_tokens_witness :
    string_token (tokens_line 50) default_delimiters fresh_args
      = some (MAX_ARGS, List.replicate MAX_ARGS Ptr.freed ++ [Ptr.null], too_many_arguments) :=
  (overflow_from_fifty_tokens (tokens_line 50) default_delimiters fresh_args (by decide)).1
    (by rw [tokens_line_runs]; simp [MAX_ARGS])

/-! ## What of an input unit is parsed -/

theorem strcspn_congr (s a b : List Char) (h : ∀ c, c ∈ a ↔ c ∈ b) :
    strcspn s a = strcspn s b := by
  induction s with
  | nil => rfl
  | cons c s ih => simp only [strcspn, h c, ih]

theorem take_take_strcspn (s a b : List Char) :
    (s.take (strcspn s a)).take (strcspn (s.take (strcspn s a)) b)
      = s.take (strcspn s (a ++ b)) := by
  induction s with
  | nil => simp [strcspn]
  | cons c s ih =>
    by_cases ha : c ∈ a
    · simp [strcspn, ha]
    · by_cases hb : c ∈ b
      · simp [strcspn, ha, hb]
      · simp only [strcspn, ha, hb, if_false, List.take_succ_cons, List.mem_append, or_self]
        rw [ih]

theorem take_strcspn_append_delim (pre tail d : List Char) (e : Char) (he : e ∈ d) :
    (pre ++ e :: tail).take (strcspn (pre ++ e :: tail) d) = pre.take (strcspn pre d) := by
  induction pre with
  | nil => simp [strcspn, he]
  | cons c pre ih =>
    by_cases hc : c ∈ d
    · simp [strcspn, hc]
    · have h2 : strcspn (c :: (pre ++ e :: tail)) d = strcspn (pre ++ e :: tail) d + 1 := by
        simp [strcspn, hc]
      have h3 : strcspn (c :: pre) d = strcspn pre d + 1 := by
        simp [strcspn, hc]
      rw [List.cons_append, h2, h3, List.take_succ_cons, List.take_succ_cons, ih]

/-- The text that `execute_shell` parses of a unit is its longest prefix free
of NUL, newline and `#`. -/
theorem parsed_prefix (raw : List Char) :
    handle_comment ((raw.take (strcspn raw [Char.ofNat 0])).take
        (strcspn (raw.take (strcspn raw [Char.ofNat 0])) ['\n']))
      = raw.take (strcspn raw [Char.ofNat 0, '\n', '#']) := by
  unfold handle_comment
  rw [take_take_strcspn raw [Char.ofNat 0] ['\n'], take_take_strcspn raw _ ['#']]
  rfl

/-- Two units with the same parsed prefix are processed alike. -/
theorem process_line_congr (platform : Platform) (pid : Int) (raw1 raw2 : List Char) (st : Shell)
    (h : raw1.take (strcspn raw1 [Char.ofNat 0, '\n', '#'])
      = raw2.take (strcspn raw2 [Char.ofNat 0, '\n', '#'])) :
    process_line platform pid raw1 st = process_line platform pid raw2 st := by
  simp only [process_line, parsed_prefix, h]

theorem process_line_cut (platform : Platform) (pid : Int) (pre tail : List Char) (e : Char)
    (st : Shell) (he : e ∈ [Char.ofNat 0, '\n', '#']) :
    process_line platform pid (pre ++ e :: tail) st = process_line platform pid pre st :=
  process_line_congr platform pid _ _ st (take_strcspn_append_delim pre tail _ e he)

/-- C14: the text from the first `#` on never takes part in the processing
of a line: the line is processed as its longest prefix without `#`, and
whatever follows a `#` can be replaced by anything else without effect. The
line `true # comment` launches `true` with the vector `[true]` only, and a
line whose first character is `#` leaves the shell state as it is. -/
theorem comment_text_is_dropped (platform : Platform) (pid : Int) (raw : List Char)
    (st : Shell) :
    process_line platform pid raw st
        = process_line platform pid (raw.take (strcspn raw ['#'])) st
      ∧ (∀ pre tail tail2 : List Char,
          process_line platform pid (pre ++ '#' :: tail) st
            = process_line platform pid (pre ++ '#' :: tail2) st
          ∧ process_line platform pid (pre ++ '#' :: tail) st
            = process_line platform pid pre st)
      ∧ process_line platform pid "true # comment".toList Shell.init
        = some { Shell.init with executed := [["true".toList]] }
      ∧ (∀ tail : List Char, process_line platform pid ('#' :: tail) st = some st) := by
  refine ⟨?_, ?_, rfl, ?_⟩
  · apply process_line_congr
    have h1 := take_take_strcspn raw ['#'] [Char.ofNat 0, '\n', '#']
    rw [h1]
    congr 1
    apply strcspn_congr
    intro c
    simp only [List.mem_append, List.mem_cons, List.mem_singleton, List.not_mem_nil, or_false]
    tauto
  · intro pre tail tail2
    have h1 := process_line_cut platform pid pre tail '#' st (by decide)
    have h2 := process_line_cut platform pid pre tail2 '#' st (by decide)
    exact ⟨h1.trans h2.symm, h1⟩
  · intro tail
    have h := process_line_cut platform pid [] tail '#' st (by decide)
    simp only [List.nil_append] at h
    rw [h]
    rfl

/-- Without a byte 0xFF in it, a non-empty input is read as one unit in
non-interactive mode. -/
theorem read_input_whole_stream (stream : List Char) (hne : stream ≠ [])
    (hff : Char.ofNat 255 ∉ stream) :
    read_input false stream = some (stream, []) := by
  cases stream with
  | nil => exact absurd rfl hne
  | cons c t =>
    have hn : strcspn (c :: t) [unit_delimiter false] = (c :: t).length := by
      apply strcspn_eq_length
      intro x hx hm
      have hx2 : x = Char.ofNat 255 := by
        simpa [unit_delimiter] using hm
      exact hff (hx2 ▸ hx)
    simp only [read_input, hn]
    simp

theorem execute_shell_one_unit (platform : Platform) (pid : Int) (stream : List Char)
    (hunit : read_input false stream = some (stream, [])) :
    execute_shell platform pid false stream = process_line platform pid stream Shell.init := by
  cases stream with
  | nil => rfl
  | cons c t =>
    simp only [execute_shell, List.length_cons, shell_loop, hunit]
    cases h : process_line platform pid (c :: t) Shell.init with
    | none => rfl
    | some st1 =>
      simp only []
      cases hr : st1.run <;> rfl

theorem strcspn_lt_of_mem (pre t d : List Char) (c : Char) (hc : c ∈ pre) (hd : c ∈ d) :
    strcspn (pre ++ t) d < pre.length := by
  induction pre with
  | nil => simp at hc
  | cons a pre ih =>
    by_cases ha : a ∈ d
    · simp [strcspn, ha]
    · have hc2 : c ∈ pre := by
        rcases List.mem_cons.mp hc with h | h
        · exact absurd (h ▸ hd) ha
        · exact h
      have h : strcspn (a :: (pre ++ t)) d = strcspn (pre ++ t) d + 1 := by
        simp [strcspn, ha]
      have := ih hc2
      rw [List.cons_append, h, List.length_cons]
      omega

/-- When a stream with a newline in it is read as one unit, no byte 0xFF
comes before that newline. -/
theorem one_unit_first_line (line1 later : List Char)
    (hunit : read_input false (line1 ++ '\n' :: later) = some (line1 ++ '\n' :: later, [])) :
    Char.ofNat 255 ∉ line1 := by
  intro hmem
  have hlt := strcspn_lt_of_mem line1 ('\n' :: later) [unit_delimiter false] (Char.ofNat 255)
    hmem (by simp [unit_delimiter])
  cases hs : line1 ++ '\n' :: later with
  | nil => simp at hs
  | cons a t =>
    rw [hs] at hunit hlt
    simp only [read_input, Option.some.injEq, Prod.mk.injEq] at hunit
    have h2 := congrArg List.length hunit.2
    have h3 := congrArg List.length hs
    simp only [List.length_drop, List.length_nil, List.length_append, List.length_cons] at h2 h3
    omega

/-- After a byte 0xFF the non-interactive shell reads a further unit: here the
command of the second line is launched too. -/
theorem second_unit_after_ff (platform : Platform) (pid : Int) :
    execute_shell platform pid false ("echo a\n".toList ++ Char.ofNat 255 :: "echo b\n".toList)
      = some { Shell.init with
          executed := [["echo".toList, "a".toList], ["echo".toList, "b".toList]] } := by
  rfl

/-- C19: of every input unit that the line source returns, what follows the
first newline takes no part in the processing. So when the whole stream
`line1`, newline, `later` is read as one unit in non-interactive mode, the
shell does exactly what processing `line1` alone does, and the commands of
later lines are never executed (`echo a`, newline, `echo b` launches `echo a`
only). -/
theorem later_lines_are_dropped (platform : Platform) (pid : Int) (line1 later : List Char)
    (st : Shell)
    (hunit : read_input false (line1 ++ '\n' :: later) = some (line1 ++ '\n' :: later, [])) :
    (∀ (interactive : Bool) (stream raw left pre tail : List Char),
        read_input interactive stream = some (raw, left) → raw = pre ++ '\n' :: tail →
        process_line platform pid raw st = process_line platform pid pre st)
      ∧ process_line platform pid (line1 ++ '\n' :: later) st
        = process_line platform pid line1 st
      ∧ execute_shell platform pid false (line1 ++ '\n' :: later)
        = process_line platform pid line1 Shell.init
      ∧ execute_shell platform pid false (line1 ++ '\n' :: later)
        = execute_shell platform pid false line1
      ∧ main platform pid false (Source.stdin (line1 ++ '\n' :: later))
        = main platform pid false (Source.stdin line1)
      ∧ execute_shell platform pid false "echo a\necho b\n".toList
        = some { Shell.init with executed := [["echo".toList, "a".toList]] } := by
  have h1 : ∀ s : Shell, process_line platform pid (line1 ++ '\n' :: later) s
      = process_line platform pid line1 s :=
    fun s => process_line_cut platform pid line1 later '\n' s (by decide)
  have hff1 : Char.ofNat 255 ∉ line1 := one_unit_first_line line1 later hunit
  have h3 : execute_shell platform pid false (line1 ++ '\n' :: later)
      = process_line platform pid line1 Shell.init := by
    rw [execute_shell_one_unit _ _ _ hunit, h1]
  have h4 : execute_shell platform pid false line1
      = process_line platform pid line1 Shell.init := by
    cases hl : line1 with
    | nil => rfl
    | cons a t =>
      rw [← hl]
      exact execute_shell_one_unit _ _ _
        (read_input_whole_stream line1 (by rw [hl]; simp) hff1)
  have h2 : execute_shell platform pid false (line1 ++ '\n' :: later)
      = execute_shell platform pid false line1 := h3.trans h4.symm
  refine ⟨?_, h1 st, h3, h2, ?_, rfl⟩
  · intro interactive stream raw left pre tail _ hraw
    rw [hraw]
    exact process_line_cut platform pid pre tail '\n' st (by decide)
  · simp only [main, h2]

theorem later_lines_are_dropped_witness :
    execute_shell (always 0) 1 false ("echo a".toList ++ '\n' :: "echo b\n".toList)
      = process_line (always 0) 1 "echo a".toList Shell.init :=
  (later_lines_are_dropped (always 0) 1 "echo a".toList "echo b\n".toList Shell.init
    (by decide)).2.2.1

/-! ## The operator loop -/

theorem strtok_token_no_delim (rest d t : List Char) (h : (strtok rest d).1 = some t) :
    ∀ c ∈ t, c ∉ d := by
  unfold strtok at h
  rcases hd : List.drop (strspn rest d) rest with _ | ⟨c, s⟩
  · rw [hd] at h
    simp at h
  · rw [hd] at h
    simp only [Option.some.injEq] at h
    rw [← h]
    exact take_strcspn_no_delim (c :: s) d

theorem strtok_none_rest (rest d : List Char) (h : (strtok rest d).1 = none) :
    (strtok rest d).2 = [] := by
  unfold strtok at h ⊢
  rcases hd : List.drop (strspn rest d) rest with _ | ⟨c, s⟩
  · rfl
  · rw [hd] at h
    simp at h

/-- An operator string returned by the scan with the delimiters `&|` is
neither `&&` nor `||`. -/
theorem strtok_op_ne (rest o : List Char) (h : (strtok rest ['&', '|']).1 = some o) :
    o ≠ ['&', '&'] ∧ o ≠ ['|', '|'] := by
  have hno := strtok_token_no_delim rest ['&', '|'] o h
  constructor
  · rintro rfl
    exact hno '&' (by decide) (by decide)
  · rintro rfl
    exact hno '|' (by decide) (by decide)

/-- With an operator string that is neither `&&` nor `||`, and operator
strings from the `&|` scan afterwards, the loop runs as the loop without the
two tests. -/
theorem chain_loop_eq_unconditional (platform : Platform) (pid : Int) (fuel : Nat)
    (op : Option (List Char)) (rest : List Char) (argv : List (List Char)) (status : Int)
    (st : Shell) (hop : ∀ o, op = some o → o ≠ ['&', '&'] ∧ o ≠ ['|', '|']) :
    chain_loop platform pid fuel op rest argv status st
      = chain_loop_unconditional platform pid fuel op rest argv status st := by
  induction fuel generalizing op rest argv status st with
  | zero =>
    cases op with
    | none => simp [chain_loop, chain_loop_unconditional]
    | some o => simp [chain_loop, chain_loop_unconditional]
  | succ fuel ih =>
    cases op with
    | none => simp [chain_loop, chain_loop_unconditional]
    | some o =>
      obtain ⟨h1, h2⟩ := hop o rfl
      simp only [chain_loop, chain_loop_unconditional, h1, h2, decide_False, Bool.false_and,
        Bool.false_eq_true, if_false]
      split
      · rename_i t rest1 heq
        exact ih _ _ _ _ _ (fun o ho => strtok_op_ne rest1 o ho)
      · rfl

/-- When the loop ends, `strtok`'s cursor is at the end of the line. -/
theorem chain_loop_final_cursor (platform : Platform) (pid : Int) (fuel : Nat)
    (op : Option (List Char)) (rest : List Char) (argv : List (List Char)) (status : Int)
    (st : Shell) (hnone : op = none → rest = [])
    (hop : ∀ o, op = some o → o ≠ ['&', '&'] ∧ o ≠ ['|', '|'])
    (r : List Char × List (List Char) × Shell)
    (h : chain_loop platform pid fuel op rest argv status st = some r) : r.1 = [] := by
  induction fuel generalizing op rest argv status st with
  | zero =>
    cases op with
    | none =>
      simp only [chain_loop, Option.some.injEq] at h
      rw [← h]
      exact hnone rfl
    | some o => simp [chain_loop] at h
  | succ fuel ih =>
    cases op with
    | none =>
      simp only [chain_loop, Option.some.injEq] at h
      rw [← h]
      exact hnone rfl
    | some o =>
      obtain ⟨h1, h2⟩ := hop o rfl
      simp only [chain_loop, h1, h2, decide_False, Bool.false_and, Bool.false_eq_true,
        if_false] at h
      split at h
      · rename_i t rest1 heq
        exact ih _ _ _ _ _ (fun hn => strtok_none_rest rest1 _ hn)
          (fun o ho => strtok_op_ne rest1 o ho) h
      · rename_i rest1 heq
        simp only [Option.some.injEq] at h
        rw [← h]
        have := strtok_none_rest rest [';'] (by rw [heq])
        rw [heq] at this
        exact this

/-- C17: the operator string that the scan with the delimiters `&|` returns
holds neither `&` nor `|`, so it is neither `&&` nor `||`; for every status
the loop entered with it runs exactly as the loop without the two
short-circuit tests, and (given fuel for the unread text) it returns with
`strtok`'s cursor at the end of the line. -/
theorem operator_never_recognised (platform : Platform) (pid : Int) (fuel : Nat)
    (cursor : List Char) (argv : List (List Char)) (status : Int) (st : Shell) :
    (∀ op, (strtok cursor ['&', '|']).1 = some op →
        '&' ∉ op ∧ '|' ∉ op ∧ op ≠ ['&', '&'] ∧ op ≠ ['|', '|'])
      ∧ chain_loop platform pid fuel (strtok cursor ['&', '|']).1 (strtok cursor ['&', '|']).2
          argv status st
        = chain_loop_unconditional platform pid fuel (strtok cursor ['&', '|']).1
          (strtok cursor ['&', '|']).2 argv status st
      ∧ (cursor.length ≤ fuel →
          ∃ argv1 st1, chain_loop platform pid fuel (strtok cursor ['&', '|']).1
            (strtok cursor ['&', '|']).2 argv status st = some ([], argv1, st1)) := by
  refine ⟨?_, ?_, ?_⟩
  · intro op hop
    have hno := strtok_token_no_delim cursor ['&', '|'] op hop
    have hne := strtok_op_ne cursor op hop
    exact ⟨fun hm => hno '&' hm (by decide), fun hm => hno '|' hm (by decide), hne.1, hne.2⟩
  · exact chain_loop_eq_unconditional platform pid fuel _ _ argv status st
      (fun o ho => strtok_op_ne cursor o ho)
  · intro hfuel
    obtain ⟨⟨r, a, s⟩, hr, _⟩ := chain_loop_total platform pid fuel
      (strtok cursor ['&', '|']).1 (strtok cursor ['&', '|']).2 argv status st
      (fun h => by have := strtok_rest_lt cursor ['&', '|'] h; omega)
    have hcur := chain_loop_final_cursor platform pid fuel _ _ argv status st
      (fun hn => strtok_none_rest cursor _ hn) (fun o ho => strtok_op_ne cursor o ho) _ hr
    simp only at hcur
    subst hcur
    exact ⟨a, s, hr⟩

theorem operator_never_recognised_witness :
    ∃ argv1 st1, chain_loop (always 1) 1 8 (strtok " && b".toList ['&', '|']).1
      (strtok " && b".toList ['&', '|']).2 ["a".toList] 1 Shell.init = some ([], argv1, st1) :=
  (operator_never_recognised (always 1) 1 8 " && b".toList ["a".toList] 1 Shell.init).2.2
    (by decide)

/-! ## The vector used inside the operator loop -/

theorem ite_ne_of (c : Prop) [Decidable c] (a b x : Char) (ha : a ≠ x) (hb : b ≠ x) :
    (if c then a else b) ≠ x := by
  split <;> assumption

theorem digitChar_ne_dollar (k : Nat) : Nat.digitChar k ≠ '$' := by
  unfold Nat.digitChar
  repeat' apply ite_ne_of
  all_goals decide

theorem toDigitsCore_no_dollar (b f n : Nat) (acc : List Char) (h : '$' ∉ acc) :
    '$' ∉ Nat.toDigitsCore b f n acc := by
  induction f generalizing n acc with
  | zero => simpa [Nat.toDigitsCore] using h
  | succ f ih =>
    have hd : '$' ∉ Nat.digitChar (n % b) :: acc := by
      intro hm
      rcases List.mem_cons.mp hm with h1 | h1
      · exact digitChar_ne_dollar _ h1.symm
      · exact h h1
    simp only [Nat.toDigitsCore]
    split
    · exact hd
    · exact ih _ _ hd

theorem pid_str_ne_dollar_dollar (pid : Int) : pid_str pid ≠ ['$', '$'] := by
  have hf : '$' ∉ format_d pid := by
    cases pid with
    | ofNat n =>
      simp only [format_d, Nat.toDigits]
      exact toDigitsCore_no_dollar 10 _ _ [] (by simp)
    | negSucc n =>
      simp only [format_d, Nat.toDigits]
      intro hm
      rcases List.mem_cons.mp hm with h1 | h1
      · revert h1
        decide
      · exact toDigitsCore_no_dollar 10 _ _ [] (by simp) h1
  intro h
  have hm : '$' ∈ pid_str pid := by
    rw [h]
    simp
  exact hf (List.mem_of_mem_take hm)

theorem replace_variables_nil (args : List (List Char)) : replace_variables args [] = args := by
  induction args with
  | nil => rfl
  | cons a rest ih => simp [replace_variables, replace_slot, ih]

/-- A second run of the substitution passes of `execute_shell` (empty variable
table) changes nothing. -/
theorem substitution_idempotent (args : List (List Char)) (pid : Int) :
    handle_dollar_dollar
        (replace_variables (handle_dollar_dollar (replace_variables args []) pid) []) pid
      = handle_dollar_dollar (replace_variables args []) pid := by
  simp only [replace_variables_nil, handle_dollar_dollar_eq_map, List.map_map]
  apply List.map_congr_left
  intro a _
  by_cases h : a = ['$', '$']
  · simp [h, pid_str_ne_dollar_dollar pid]
  · simp [h]

/-- Inside the operator loop every launch uses the vector the loop was
entered with, when that vector has been through the substitution passes. -/
theorem chain_loop_reuses (platform : Platform) (pid : Int) (fuel : Nat)
    (op : Option (List Char)) (rest : List Char) (v : List (List Char)) (status : Int)
    (st : Shell) (hv : handle_dollar_dollar (replace_variables v []) pid = v)
    (hfuel : op.isSome → rest.length < fuel) :
    ∃ r n, chain_loop platform pid fuel op rest v status st
      = some (r, v, { st with executed := st.executed ++ List.replicate n v }) := by
  induction fuel generalizing op rest status st with
  | zero =>
    cases op with
    | none => exact ⟨rest, 0, by simp [chain_loop]⟩
    | some o => exact absurd (hfuel rfl) (Nat.not_lt_zero _)
  | succ fuel ih =>
    cases op with
    | none => exact ⟨rest, 0, by simp [chain_loop]⟩
    | some o =>
      have hf := hfuel rfl
      simp only [chain_loop]
      split
      · exact ⟨rest, 0, by simp⟩
      · split
        · exact ⟨rest, 0, by simp⟩
        · have h1s := strtok_rest_lt rest [';']
          split
          · rename_i t rest1 heq
            rw [heq] at h1s
            have h2 := strtok_rest_le rest1 ['&', '|']
            have hlt : rest1.length < rest.length := h1s rfl
            rw [hv]
            obtain ⟨r, n, hr⟩ := ih (strtok rest1 ['&', '|']).1 (strtok rest1 ['&', '|']).2
              (run_external platform v st).1 (run_external platform v st).2 (fun _ => by omega)
            refine ⟨r, n + 1, ?_⟩
            rw [hr]
            simp [run_external, List.replicate_succ]
          · rename_i rest1 heq
            exact ⟨rest1, 0, by simp⟩

/-- C18: entered with the vector of the segment's first command as it was
launched, the operator loop launches that same vector at every iteration,
some number `n` of times, and tokenizes nothing; on the line `a ; b & c` the
shell launches `a` twice and neither `b` nor `c`. -/
theorem chain_relaunches_first_command (platform : Platform) (pid : Int) (fuel : Nat)
    (op : Option (List Char)) (rest : List Char) (toks : List (List Char)) (status : Int)
    (st : Shell) (hfuel : op.isSome → rest.length < fuel) :
    (∃ r n, chain_loop platform pid fuel op rest
        (handle_dollar_dollar (replace_variables toks []) pid) status st
      = some (r, handle_dollar_dollar (replace_variables toks []) pid,
          { st with executed := st.executed
              ++ List.replicate n (handle_dollar_dollar (replace_variables toks []) pid) }))
      ∧ process_line platform pid "a ; b & c".toList Shell.init
        = some { Shell.init with executed := [["a".toList], ["a".toList]] } :=
  ⟨chain_loop_reuses platform pid fuel op rest _ status st
      (substitution_idempotent toks pid) hfuel, rfl⟩

theorem chain_relaunches_first_command_witness :
    ∃ r n, chain_loop (always 0) 1 4 (some " b ".toList) " c".toList
        (handle_dollar_dollar (replace_variables ["a".toList] []) 1) 0 Shell.init
      = some (r, handle_dollar_dollar (replace_variables ["a".toList] []) 1,
          { Shell.init with executed := Shell.init.executed
              ++ List.replicate n (handle_dollar_dollar (replace_variables ["a".toList] []) 1) }) :=
  (chain_relaunches_first_command (always 0) 1 4 (some " b ".toList) " c".toList ["a".toList] 0
    Shell.init (by decide)).1

/-! ## The exit status of the shell -/

theorem chain_loop_run (platform : Platform) (pid : Int) (fuel : Nat)
    (op : Option (List Char)) (rest : List Char) (argv : List (List Char)) (status : Int)
    (st : Shell) (r : List Char × List (List Char) × Shell)
    (h : chain_loop platform pid fuel op rest argv status st = some r) :
    r.2.2.run = st.run := by
  induction fuel generalizing op rest argv status st with
  | zero =>
    cases op with
    | none =>
      simp only [chain_loop, Option.some.injEq] at h
      rw [← h]
    | some o => simp [chain_loop] at h
  | succ fuel ih =>
    cases op with
    | none =>
      simp only [chain_loop, Option.some.injEq] at h
      rw [← h]
    | some o =>
      simp only [chain_loop] at h
      split at h
      · simp only [Option.some.injEq] at h
        rw [← h]
      · split at h
        · simp only [Option.some.injEq] at h
          rw [← h]
        · split at h
          · have := ih _ _ _ _ _ h
            rw [this]
            rfl
          · simp only [Option.some.injEq] at h
            rw [← h]

/-- The `;` loop leaves the process running, or ends it with status 0, or
runs into undefined behaviour. -/
theorem command_loop_run (platform : Platform) (pid : Int) (fuel : Nat)
    (command : Option (List Char)) (rest : List Char) (args : List Ptr) (st s : Shell)
    (h : command_loop platform pid fuel command rest args st = some s) :
    s.run = st.run ∨ s.run = Run.exited 0 ∨ s.run = Run.undefined := by
  induction fuel generalizing command rest args st with
  | zero =>
    cases command with
    | none =>
      simp only [command_loop, Option.some.injEq] at h
      exact Or.inl (by rw [← h])
    | some c => simp [command_loop] at h
  | succ fuel ih =>
    cases command with
    | none =>
      simp only [command_loop, Option.some.injEq] at h
      exact Or.inl (by rw [← h])
    | some c =>
      simp only [command_loop] at h
      split at h
      · split at h
        · exact absurd h (by simp)
        · split at h
          · split at h
            · simp only [Option.some.injEq] at h
              exact Or.inr (Or.inr (by rw [← h]))
            · simp only [Option.some.injEq] at h
              exact Or.inr (Or.inr (by rw [← h]))
            · split at h
              · simp only [Option.some.injEq] at h
                exact Or.inl (by rw [← h])
              · split at h
                · simp only [Option.some.injEq] at h
                  exact Or.inr (Or.inl (by rw [← h]))
                · have := ih _ _ _ _ h
                  revert this
                  split <;> exact id
                · split at h
                  · exact absurd h (by simp)
                  · rename_i rest2 argv2 st2 hc
                    have hrun := chain_loop_run _ _ _ _ _ _ _ _ _ hc
                    have := ih _ _ _ _ h
                    simp only [run_external] at hrun
                    rw [hrun] at this
                    exact this
          · have := ih _ _ _ _ h
            exact this
      · exact ih _ _ _ _ h

theorem process_line_run (platform : Platform) (pid : Int) (raw : List Char) (st s : Shell)
    (h : process_line platform pid raw st = some s) :
    s.run = st.run ∨ s.run = Run.exited 0 ∨ s.run = Run.undefined := by
  simp only [process_line] at h
  split at h
  · simp only [Option.some.injEq] at h
    exact Or.inl (by rw [← h])
  · exact command_loop_run platform pid _ _ _ _ st s h

theorem read_input_lt (interactive : Bool) (stream raw stream1 : List Char)
    (h : read_input interactive stream = some (raw, stream1)) :
    stream1.length < stream.length := by
  cases stream with
  | nil => simp [read_input] at h
  | cons c t =>
    simp only [read_input, Option.some.injEq, Prod.mk.injEq] at h
    rw [← h.2]
    simp only [List.length_drop, List.length_cons]
    omega

/-- The read loop returns, with the process still running (end of input),
ended with status 0, or in undefined behaviour. -/
theorem shell_loop_ends (platform : Platform) (pid : Int) (interactive : Bool) (fuel : Nat)
    (stream : List Char) (st : Shell) (hfuel : stream.length < fuel)
    (hrun : st.run = Run.running) :
    ∃ s, shell_loop platform pid interactive fuel stream st = some s
      ∧ (s.run = Run.running ∨ s.run = Run.exited 0 ∨ s.run = Run.undefined) := by
  induction fuel generalizing stream st with
  | zero => omega
  | succ fuel ih =>
    simp only [shell_loop]
    rcases hread : read_input interactive stream with _ | ⟨raw, stream1⟩
    · exact ⟨st, rfl, Or.inl hrun⟩
    · have hlt := read_input_lt interactive stream raw stream1 hread
      obtain ⟨st1, hst1⟩ := process_line_total platform pid raw st
      have hr := process_line_run platform pid raw st st1 hst1
      rw [hrun] at hr
      simp only [hst1]
      rcases hr with hr | hr | hr
      · simp only [hr]
        exact ih stream1 st1 (by omega) hr
      · simp only [hr]
        exact ⟨st1, rfl, Or.inr (Or.inl hr)⟩
      · simp only [hr]
        exact ⟨st1, rfl, Or.inr (Or.inr hr)⟩

theorem main_ends (platform : Platform) (pid : Int) (interactive : Bool) (stream : List Char) :
    ∃ s, (match execute_shell platform pid interactive stream with
        | none => none
        | some st =>
          match st.run with
          | Run.running => some { st with run := Run.exited 0 }
          | _ => some st) = some s
      ∧ (s.run = Run.exited 0 ∨ s.run = Run.undefined) := by
  obtain ⟨st, hst, hr⟩ := shell_loop_ends platform pid interactive (stream.length + 1) stream
    Shell.init (by omega) rfl
  simp only [execute_shell, hst]
  rcases hr with hr | hr | hr
  · simp only [hr]
    exact ⟨_, rfl, Or.inl rfl⟩
  · simp only [hr]
    exact ⟨_, rfl, Or.inl hr⟩
  · simp only [hr]
    exact ⟨_, rfl, Or.inr hr⟩

/-! ### Segments below the cap -/

end SimpleShell
